import Mathlib

/-!
Verification development for the `framed` metabolic-modeling core:
a shallow embedding of the layered model hierarchy of
`src/framed/core/models.py` (StoichiometricModel, ConstraintBasedModel,
GPRConstrainedModel) and of the reversibility transformation of
`src/framed/core/transformation.py` (`make_irreversible`).

Python `OrderedDict` objects are embedded as association lists whose
operations preserve insertion order (replacement keeps the original
position).  Floating-point coefficients and bounds are embedded as
rationals; `None` bounds become `Option.none`.  Operations that can raise
a Python exception (`KeyError`, `AttributeError`) return a `PyResult`
that carries the state of the model at the moment the exception is
raised, since the Python objects are mutated in place.
-/

/-- Association-list lookup returning the first value bound to the key,
mirroring Python dictionary access `d[k]`. -/
def odFind {K V : Type} [DecidableEq K] : List (K × V) → K → Option V
  | [], _ => none
  | e :: rest, k => if e.1 = k then some e.2 else odFind rest k

/-- Insert-or-replace, keeping the original position on replacement,
mirroring Python `OrderedDict` assignment `d[k] = v`. -/
def odInsert {K V : Type} [DecidableEq K] : List (K × V) → K → V → List (K × V)
  | [], k, v => [(k, v)]
  | e :: rest, k, v => if e.1 = k then (k, v) :: rest else e :: odInsert rest k v

/-- Delete every entry bound to the key (with unique keys this is Python
`del d[k]` for a present key). -/
def odErase {K V : Type} [DecidableEq K] : List (K × V) → K → List (K × V)
  | [], _ => []
  | e :: rest, k => if e.1 = k then odErase rest k else e :: odErase rest k

/-- Membership test, mirroring Python `k in d`. -/
def odContains {K V : Type} [DecidableEq K] (d : List (K × V)) (k : K) : Bool :=
  (odFind d k).isSome

/-- Key list of an association list, in insertion order. -/
def odKeys {K V : Type} (d : List (K × V)) : List K := d.map Prod.fst

/-- Guarded bulk deletion: `for k in ids: if k in d: del d[k]`
(erasing an absent key is a no-op). -/
def odEraseList {K V : Type} [DecidableEq K] : List (K × V) → List K → List (K × V)
  | d, [] => d
  | d, k :: ks => odEraseList (odErase d k) ks

/-- Strict deletion `del d[k]`: `none` models the `KeyError` raised when
the key is absent. -/
def odDelStrict {K V : Type} [DecidableEq K] (d : List (K × V)) (k : K) :
    Option (List (K × V)) :=
  if odContains d k then some (odErase d k) else none

/-- Result of a Python operation mutating an object in place: `ok` carries
the final state and the returned value, `err` carries the state of the
object at the moment an exception is raised. -/
inductive PyResult (σ : Type) (α : Type) where
  | ok (s : σ) (a : α)
  | err (s : σ)
deriving DecidableEq

/-- State carried by a `PyResult`, whether the operation returned or raised. -/
def PyResult.state {σ α : Type} : PyResult σ α → σ
  | .ok s _ => s
  | .err s => s

/-- True when the operation raised an exception. -/
def PyResult.isErr {σ α : Type} : PyResult σ α → Bool
  | .ok _ _ => false
  | .err _ => true

/-- Unguarded bulk deletion `for k in ids: del d[k]` with `KeyError`
propagation; on error the result carries the partially mutated dictionary. -/
def odDelAll {K V : Type} [DecidableEq K] :
    List (K × V) → List K → PyResult (List (K × V)) Unit
  | d, [] => .ok d ()
  | d, k :: ks =>
    match odDelStrict d k with
    | some d2 => odDelAll d2 ks
    | none => .err d

/-- Edge sweep of `remove_metabolites`:
`for (m_id, r_id) in stoichiometry: if m_id in id_list: del`. -/
def stoichRemoveByMet (ids : List String) :
    List ((String × String) × Rat) → List ((String × String) × Rat)
  | [] => []
  | e :: rest =>
    if e.1.1 ∈ ids then stoichRemoveByMet ids rest
    else e :: stoichRemoveByMet ids rest

/-- Edge sweep of `remove_reactions`:
`for (m_id, r_id) in stoichiometry: if r_id in id_list: del`. -/
def stoichRemoveByRxn (ids : List String) :
    List ((String × String) × Rat) → List ((String × String) × Rat)
  | [] => []
  | e :: rest =>
    if e.1.2 ∈ ids then stoichRemoveByRxn ids rest
    else e :: stoichRemoveByRxn ids rest

/-- Metabolite record (`class Metabolite`): id, display name, compartment id. -/
structure Metabolite where
  id : String
  name : Option String
  compartment : Option String
deriving DecidableEq

/-- Reaction record (`class Reaction`): id, display name, reversibility flag. -/
structure Reaction where
  id : String
  name : Option String
  reversible : Bool
deriving DecidableEq

/-- Gene record (`class Gene`). -/
structure Gene where
  id : String
  name : Option String
deriving DecidableEq

/-- Compartment record (`class Compartment`). -/
structure Compartment where
  id : String
  name : Option String
deriving DecidableEq

/-- Bipartite stoichiometric graph container (`class StoichiometricModel`):
metabolites, reactions, compartments, and the sparse edge map
`(metabolite id, reaction id) -> coefficient`. -/
structure StoichiometricModel where
  id : String
  metabolites : List (String × Metabolite)
  reactions : List (String × Reaction)
  compartments : List (String × Compartment)
  stoichiometry : List ((String × String) × Rat)
deriving DecidableEq

namespace StoichiometricModel

/-- `add_metabolite`: insert-or-replace; silently skipped when the
metabolite's compartment reference is set but unresolved. -/
def add_metabolite (m : StoichiometricModel) (met : Metabolite) : StoichiometricModel :=
  match met.compartment with
  | none => { m with metabolites := odInsert m.metabolites met.id met }
  | some c =>
    if odContains m.compartments c then
      { m with metabolites := odInsert m.metabolites met.id met }
    else m

/-- `add_reaction` (base layer): insert-or-replace by id. -/
def add_reaction (m : StoichiometricModel) (r : Reaction) : StoichiometricModel :=
  { m with reactions := odInsert m.reactions r.id r }

/-- `add_compartment`: insert-or-replace by id. -/
def add_compartment (m : StoichiometricModel) (c : Compartment) : StoichiometricModel :=
  { m with compartments := odInsert m.compartments c.id c }

/-- `add_stoichiometry`: install each edge only when both endpoints exist,
otherwise skip silently. -/
def add_stoichiometry (m : StoichiometricModel)
    (entries : List (String × String × Rat)) : StoichiometricModel :=
  entries.foldl
    (fun mm e =>
      if odContains mm.metabolites e.1 && odContains mm.reactions e.2.1 then
        { mm with stoichiometry := odInsert mm.stoichiometry (e.1, e.2.1) e.2.2 }
      else mm)
    m

/-- `remove_metabolites`: guarded deletion of the metabolites plus removal
of every incident stoichiometry edge. -/
def remove_metabolites (m : StoichiometricModel) (ids : List String) : StoichiometricModel :=
  { m with
    metabolites := odEraseList m.metabolites ids,
    stoichiometry := stoichRemoveByMet ids m.stoichiometry }

/-- `remove_reactions` (base layer): guarded deletion of the reactions plus
removal of every incident stoichiometry edge. -/
def remove_reactions (m : StoichiometricModel) (ids : List String) : StoichiometricModel :=
  { m with
    reactions := odEraseList m.reactions ids,
    stoichiometry := stoichRemoveByRxn ids m.stoichiometry }

/-- `remove_reaction` (base layer): singleton wrapper. -/
def remove_reaction (m : StoichiometricModel) (r_id : String) : StoichiometricModel :=
  m.remove_reactions [r_id]

/-- `remove_compartment(c_id, delete_metabolites)`: delete the compartment
entry and, when the cascade flag is set, every metabolite assigned to it. -/
def remove_compartment (m : StoichiometricModel) (c_id : String)
    (delete_metabolites : Bool) : StoichiometricModel :=
  if odContains m.compartments c_id then
    let m2 : StoichiometricModel := { m with compartments := odErase m.compartments c_id }
    if delete_metabolites then
      m2.remove_metabolites
        ((m2.metabolites.filter (fun e => decide (e.2.compartment = some c_id))).map Prod.fst)
    else m2
  else m

/-- One assignment `table[r_id][m_id] = coeff` of the lookup-table builder.
The `none` branch is where Python would raise a `KeyError`; it is
unreachable while every stoichiometry edge references an existing reaction,
because the table is initialised with one row per reaction. -/
def tableAdd (t : List (String × List (String × Rat))) (r_id m_id : String)
    (c : Rat) : List (String × List (String × Rat)) :=
  match odFind t r_id with
  | some row => odInsert t r_id (odInsert row m_id c)
  | none => t

/-- `reaction_metabolite_lookup_table`: nested map
`reaction id -> metabolite id -> coefficient`, one row per reaction. -/
def reaction_metabolite_lookup_table (m : StoichiometricModel) :
    List (String × List (String × Rat)) :=
  m.stoichiometry.foldl (fun t e => tableAdd t e.1.2 e.1.1 e.2)
    (m.reactions.map (fun e => (e.1, ([] : List (String × Rat)))))

end StoichiometricModel

/-- Constraint-based layer (`class ConstraintBasedModel`): adds per-reaction
flux bound pairs; `none` stands for an unbounded side. -/
structure ConstraintBasedModel extends StoichiometricModel where
  bounds : List (String × (Option Rat × Option Rat))
deriving DecidableEq

namespace ConstraintBasedModel

/-- `set_flux_bounds`: replace the bound pair of an existing reaction;
no-op when the reaction id is absent. -/
def set_flux_bounds (m : ConstraintBasedModel) (r_id : String)
    (lb ub : Option Rat) : ConstraintBasedModel :=
  if odContains m.reactions r_id then
    { m with bounds := odInsert m.bounds r_id (lb, ub) }
  else m

/-- `set_lower_bound`: partial update of the lower side of an existing bound
pair; the guard checks membership in `reactions`, and the inner bounds
access raises a `KeyError` when the reaction has no bounds entry. -/
def set_lower_bound (m : ConstraintBasedModel) (r_id : String)
    (lb : Option Rat) : PyResult ConstraintBasedModel Unit :=
  if odContains m.reactions r_id then
    match odFind m.bounds r_id with
    | none => .err m
    | some (_, ub) => .ok { m with bounds := odInsert m.bounds r_id (lb, ub) } ()
  else .ok m ()

/-- `set_upper_bound`: partial update of the upper side, symmetric to
`set_lower_bound`. -/
def set_upper_bound (m : ConstraintBasedModel) (r_id : String)
    (ub : Option Rat) : PyResult ConstraintBasedModel Unit :=
  if odContains m.reactions r_id then
    match odFind m.bounds r_id with
    | none => .err m
    | some (lb, _) => .ok { m with bounds := odInsert m.bounds r_id (lb, ub) } ()
  else .ok m ()

/-- Overridden `add_reaction`: the base add followed by the unconditional
installation of a bounds entry. -/
def add_reaction (m : ConstraintBasedModel) (r : Reaction)
    (lb ub : Option Rat) : ConstraintBasedModel :=
  { m with
    toStoichiometricModel := m.toStoichiometricModel.add_reaction r,
    bounds := odInsert m.bounds r.id (lb, ub) }

/-- Overridden `remove_reactions`: the base removal, then an unguarded
`del self.bounds[r_id]` per id, which raises a `KeyError` on an id with no
bounds entry after the base removal has already applied. -/
def remove_reactions (m : ConstraintBasedModel) (ids : List String) :
    PyResult ConstraintBasedModel Unit :=
  let base := m.toStoichiometricModel.remove_reactions ids
  match odDelAll m.bounds ids with
  | .ok b _ => .ok { toStoichiometricModel := base, bounds := b } ()
  | .err b => .err { toStoichiometricModel := base, bounds := b }

/-- `remove_reaction` resolved at the constraint-based layer. -/
def remove_reaction (m : ConstraintBasedModel) (r_id : String) :
    PyResult ConstraintBasedModel Unit :=
  m.remove_reactions [r_id]

end ConstraintBasedModel

/-- Raw GPR rule text, embedded as the parse tree of the restricted boolean
grammar over gene identifiers (AND / OR / NOT / parentheses). -/
inductive GPRExpr where
  | gvar (g : String)
  | gand (a b : GPRExpr)
  | gor (a b : GPRExpr)
  | gnot (a : GPRExpr)
deriving DecidableEq

/-- Compiled GPR predicate, the embedding of the lambda produced by
`_rule_to_function`: gene identifiers known at compile time become map
lookups (`x['g']`), unknown identifiers are left as free names that raise
a `NameError` when the predicate is called. -/
inductive CompiledRule where
  | val (b : Bool)
  | lookupGene (g : String)
  | freeName (g : String)
  | cand (a b : CompiledRule)
  | cor (a b : CompiledRule)
  | cnot (a : CompiledRule)
deriving DecidableEq

/-- Token substitution step of `_rule_to_function`: each identifier present
in the gene list is replaced by a map lookup, the rest stay free. -/
def compileGPR (genes : List String) : GPRExpr → CompiledRule
  | .gvar g => if g ∈ genes then .lookupGene g else .freeName g
  | .gand a b => .cand (compileGPR genes a) (compileGPR genes b)
  | .gor a b => .cor (compileGPR genes a) (compileGPR genes b)
  | .gnot a => .cnot (compileGPR genes a)

/-- Evaluation of a compiled predicate against a gene-state map, with
Python short-circuit semantics for `and` / `or`; `.error` models the
`NameError` of a free identifier or the `KeyError` of a missing map key. -/
def evalCompiled (state : List (String × Bool)) : CompiledRule → Except Unit Bool
  | .val b => .ok b
  | .lookupGene g =>
    match odFind state g with
    | some b => .ok b
    | none => .error ()
  | .freeName _ => .error ()
  | .cand a b => do
    let va ← evalCompiled state a
    if va then evalCompiled state b else .ok false
  | .cor a b => do
    let va ← evalCompiled state a
    if va then .ok true else evalCompiled state b
  | .cnot a => do
    let va ← evalCompiled state a
    .ok (!va)

/-- GPR layer (`class GPRConstrainedModel`): adds genes, raw rules and the
compiled predicate per reaction. -/
structure GPRConstrainedModel extends ConstraintBasedModel where
  genes : List (String × Gene)
  rules : List (String × Option GPRExpr)
  rule_functions : List (String × CompiledRule)
deriving DecidableEq

namespace GPRConstrainedModel

/-- `add_gene`: insert-or-replace by id. -/
def add_gene (m : GPRConstrainedModel) (g : Gene) : GPRConstrainedModel :=
  { m with genes := odInsert m.genes g.id g }

/-- `_rule_to_function`: an unset rule compiles to the constant `True`
predicate, otherwise the rule text is compiled with the genes known now. -/
def rule_to_function (m : GPRConstrainedModel) (rule : Option GPRExpr) : CompiledRule :=
  match rule with
  | none => .val true
  | some e => compileGPR (odKeys m.genes) e

/-- `set_rule`: store the raw rule text and recompile the predicate; no-op
when the reaction id is absent. -/
def set_rule (m : GPRConstrainedModel) (r_id : String)
    (rule : Option GPRExpr) : GPRConstrainedModel :=
  if odContains m.reactions r_id then
    { m with
      rules := odInsert m.rules r_id rule,
      rule_functions := odInsert m.rule_functions r_id (m.rule_to_function rule) }
  else m

/-- Overridden `add_reaction`: the constrained add followed by `set_rule`. -/
def add_reaction (m : GPRConstrainedModel) (r : Reaction)
    (lb ub : Option Rat) (rule : Option GPRExpr) : GPRConstrainedModel :=
  let m2 : GPRConstrainedModel :=
    { m with toConstraintBasedModel := m.toConstraintBasedModel.add_reaction r lb ub }
  m2.set_rule r.id rule

/-- Per-id deletion loop of the GPR `remove_reactions` override:
`del self.rules[r_id]; del self.rule_functions[r_id]` with `KeyError`
propagation. -/
def rulesDel : List (String × Option GPRExpr) → List (String × CompiledRule) →
    List String →
    PyResult (List (String × Option GPRExpr) × List (String × CompiledRule)) Unit
  | ru, rf, [] => .ok (ru, rf) ()
  | ru, rf, k :: ks =>
    match odDelStrict ru k with
    | none => .err (ru, rf)
    | some ru2 =>
      match odDelStrict rf k with
      | none => .err (ru2, rf)
      | some rf2 => rulesDel ru2 rf2 ks

/-- Overridden `remove_reactions`: the constrained removal, then the
unguarded deletion of the rule and rule-function entries. -/
def remove_reactions (m : GPRConstrainedModel) (ids : List String) :
    PyResult GPRConstrainedModel Unit :=
  match m.toConstraintBasedModel.remove_reactions ids with
  | .err cb => .err { m with toConstraintBasedModel := cb }
  | .ok cb _ =>
    match rulesDel m.rules m.rule_functions ids with
    | .ok p _ =>
      .ok { toConstraintBasedModel := cb, genes := m.genes,
            rules := p.1, rule_functions := p.2 } ()
    | .err p =>
      .err { toConstraintBasedModel := cb, genes := m.genes,
             rules := p.1, rule_functions := p.2 }

/-- `remove_reaction` resolved at the GPR layer. -/
def remove_reaction (m : GPRConstrainedModel) (r_id : String) :
    PyResult GPRConstrainedModel Unit :=
  m.remove_reactions [r_id]

/-- Boolean gene-state map built by `eval_GPR`: one key per known gene,
true iff the gene is in the active set. -/
def genes_state (m : GPRConstrainedModel) (active_genes : List String) :
    List (String × Bool) :=
  m.genes.map (fun e => (e.1, decide (e.1 ∈ active_genes)))

end GPRConstrainedModel

/-- Comprehension loop of `eval_GPR`: collect, in insertion order, the
reaction ids whose predicate evaluates true; the first exception aborts. -/
def evalGPRGo (state : List (String × Bool)) :
    List (String × CompiledRule) → Except Unit (List String)
  | [] => .ok []
  | (r_id, f) :: rest => do
    let b ← evalCompiled state f
    let l ← evalGPRGo state rest
    .ok (if b then r_id :: l else l)

/-- `eval_GPR(active_genes)`: evaluate every compiled predicate against the
gene-state map and return the active reaction ids in insertion order. -/
def GPRConstrainedModel.eval_GPR (m : GPRConstrainedModel)
    (active_genes : List String) : Except Unit (List String) :=
  evalGPRGo (m.genes_state active_genes) m.rule_functions

/-- Backward upper bound of a split: `-lb if lb != None else None`. -/
def negBound : Option Rat → Option Rat
  | some v => some (-v)
  | none => none

/-- Inner edge loop of `make_irreversible`: for each incident
`(metabolite, coefficient)` pair of the snapshot row, install the same
coefficient on the forward reaction and the negated one on the backward
reaction. -/
def edgeFold (fwd_id bwd_id : String) (row : List (String × Rat))
    (st : List ((String × String) × Rat)) : List ((String × String) × Rat) :=
  row.foldl (fun s e => odInsert (odInsert s (e.1, fwd_id) e.2) (e.1, bwd_id) (-e.2)) st

/-- Body of one reversible-reaction split at the stoichiometric layer:
add the `_f` and `_b` reactions, install the mirrored edges from the
snapshot row, and remove the original reaction. -/
def splitStepS (table : List (String × List (String × Rat)))
    (m : StoichiometricModel) (r_id : String) (reaction : Reaction) :
    StoichiometricModel :=
  let fwd_id := reaction.id ++ "_f"
  let bwd_id := reaction.id ++ "_b"
  let m2 := m.add_reaction (Reaction.mk fwd_id reaction.name false)
  let m3 := m2.add_reaction (Reaction.mk bwd_id reaction.name false)
  let row := (odFind table r_id).getD []
  let m4 : StoichiometricModel :=
    { m3 with stoichiometry := edgeFold fwd_id bwd_id row m3.stoichiometry }
  m4.remove_reaction r_id

/-- Loop of `make_irreversible` over the snapshot of `reactions.items()`,
resolved at the stoichiometric layer (both `isinstance` checks false). -/
def irrevGoS (table : List (String × List (String × Rat))) :
    List (String × Reaction) → StoichiometricModel →
    List (String × (String × String)) →
    StoichiometricModel × List (String × (String × String))
  | [], m, mp => (m, mp)
  | (r_id, reaction) :: rest, m, mp =>
    if reaction.reversible then
      irrevGoS table rest (splitStepS table m r_id reaction)
        (odInsert mp r_id (reaction.id ++ "_f", reaction.id ++ "_b"))
    else irrevGoS table rest m mp

/-- `make_irreversible` on a plain `StoichiometricModel`. -/
def make_irreversible_stoich (m : StoichiometricModel) :
    StoichiometricModel × List (String × (String × String)) :=
  irrevGoS m.reaction_metabolite_lookup_table m.reactions m []

/-- Loop of `make_irreversible` resolved at the constraint-based layer:
the adds install default bounds, the original bounds are read (a
`KeyError` when absent), forward bounds become `(0, ub)` and backward
bounds `(0, -lb)` or unbounded, and the removal cascades to bounds. -/
def irrevGoC (table : List (String × List (String × Rat))) :
    List (String × Reaction) → ConstraintBasedModel →
    List (String × (String × String)) →
    PyResult ConstraintBasedModel (List (String × (String × String)))
  | [], m, mp => .ok m mp
  | (r_id, reaction) :: rest, m, mp =>
    if reaction.reversible then
      let fwd_id := reaction.id ++ "_f"
      let bwd_id := reaction.id ++ "_b"
      let mp2 := odInsert mp r_id (fwd_id, bwd_id)
      let m2 := m.add_reaction (Reaction.mk fwd_id reaction.name false) none none
      let m3 := m2.add_reaction (Reaction.mk bwd_id reaction.name false) none none
      let m4 : ConstraintBasedModel :=
        { m3 with toStoichiometricModel :=
            { m3.toStoichiometricModel with
              stoichiometry := edgeFold fwd_id bwd_id ((odFind table r_id).getD [])
                m3.stoichiometry } }
      match odFind m4.bounds r_id with
      | none => .err m4
      | some (lb, ub) =>
        let m5 := m4.set_flux_bounds fwd_id (some 0) ub
        let m6 := m5.set_flux_bounds bwd_id (some 0) (negBound lb)
        match m6.remove_reaction r_id with
        | .ok m7 _ => irrevGoC table rest m7 mp2
        | .err m7 => .err m7
    else irrevGoC table rest m mp

/-- `make_irreversible` on a `ConstraintBasedModel`. -/
def make_irreversible_constraint (m : ConstraintBasedModel) :
    PyResult ConstraintBasedModel (List (String × (String × String))) :=
  irrevGoC m.toStoichiometricModel.reaction_metabolite_lookup_table m.reactions m []

/-- Loop of `make_irreversible` resolved at the GPR layer.  After the adds
(each installing an unset rule through the overridden `add_reaction`), the
edges and the bounds, the source calls `model.add_rule(fwd_id, ...)` — a
method that does not exist on any class of the hierarchy (the class
defines `set_rule`), so every reversible reaction raises an
`AttributeError` at that point. -/
def irrevGoG (table : List (String × List (String × Rat))) :
    List (String × Reaction) → GPRConstrainedModel →
    List (String × (String × String)) →
    PyResult GPRConstrainedModel (List (String × (String × String)))
  | [], m, mp => .ok m mp
  | (r_id, reaction) :: rest, m, mp =>
    if reaction.reversible then
      let fwd_id := reaction.id ++ "_f"
      let bwd_id := reaction.id ++ "_b"
      let m2 := m.add_reaction (Reaction.mk fwd_id reaction.name false) none none none
      let m3 := m2.add_reaction (Reaction.mk bwd_id reaction.name false) none none none
      let m4 : GPRConstrainedModel :=
        { m3 with toConstraintBasedModel :=
            { m3.toConstraintBasedModel with toStoichiometricModel :=
                { m3.toStoichiometricModel with
                  stoichiometry := edgeFold fwd_id bwd_id ((odFind table r_id).getD [])
                    m3.stoichiometry } } }
      match odFind m4.bounds r_id with
      | none => .err m4
      | some (lb, ub) =>
        let m5 : GPRConstrainedModel :=
          { m4 with toConstraintBasedModel :=
              m4.toConstraintBasedModel.set_flux_bounds fwd_id (some 0) ub }
        let m6 : GPRConstrainedModel :=
          { m5 with toConstraintBasedModel :=
              m5.toConstraintBasedModel.set_flux_bounds bwd_id (some 0) (negBound lb) }
        .err m6
    else irrevGoG table rest m mp

/-- `make_irreversible` on a `GPRConstrainedModel`. -/
def make_irreversible_GPR (m : GPRConstrainedModel) :
    PyResult GPRConstrainedModel (List (String × (String × String))) :=
  irrevGoG m.toStoichiometricModel.reaction_metabolite_lookup_table m.reactions m []

/-- A model of any layer of the hierarchy, the argument type of the
polymorphic `make_irreversible` (which branches on `isinstance`). -/
inductive AnyModel where
  | stoich (m : StoichiometricModel)
  | constraint (m : ConstraintBasedModel)
  | gpr (m : GPRConstrainedModel)
deriving DecidableEq

/-- `make_irreversible(model)`: dispatch on the concrete layer of the
argument, returning the mapping from each original reversible reaction id
to its `(forward id, backward id)` pair. -/
def make_irreversible : AnyModel →
    PyResult AnyModel (List (String × (String × String)))
  | .stoich m =>
    let r := make_irreversible_stoich m
    .ok (.stoich r.1) r.2
  | .constraint m =>
    match make_irreversible_constraint m with
    | .ok m2 mp => .ok (.constraint m2) mp
    | .err m2 => .err (.constraint m2)
  | .gpr m =>
    match make_irreversible_GPR m with
    | .ok m2 mp => .ok (.gpr m2) mp
    | .err m2 => .err (.gpr m2)

/-- Reactions map of a model of any layer. -/
def AnyModel.reactions : AnyModel → List (String × Reaction)
  | .stoich m => m.reactions
  | .constraint m => m.reactions
  | .gpr m => m.reactions

/-- Stoichiometry map of a model of any layer. -/
def AnyModel.stoichiometry : AnyModel → List ((String × String) × Rat)
  | .stoich m => m.stoichiometry
  | .constraint m => m.stoichiometry
  | .gpr m => m.stoichiometry

/-- Bounds map of a model, when its layer carries one. -/
def AnyModel.boundsOf : AnyModel → Option (List (String × (Option Rat × Option Rat)))
  | .stoich _ => none
  | .constraint m => some m.bounds
  | .gpr m => some m.bounds

/-- Rules map of a model, when its layer carries one. -/
def AnyModel.rulesOf : AnyModel → Option (List (String × Option GPRExpr))
  | .stoich _ => none
  | .constraint _ => none
  | .gpr m => some m.rules

/-- Basic well-formedness of the graph layer, maintained by the public add
and remove operations: reaction keys are unique, every stored reaction
record carries its own key as id, stoichiometry keys are unique, and every
edge references an existing reaction. -/
def StoichiometricModel.wf (m : StoichiometricModel) : Prop :=
  (odKeys m.reactions).Nodup ∧
  (∀ e ∈ m.reactions, e.2.id = e.1) ∧
  (m.stoichiometry.map Prod.fst).Nodup ∧
  (∀ e ∈ m.stoichiometry, e.1.2 ∈ odKeys m.reactions)

/-- Freshness of the generated split ids: for every reversible reaction,
neither `<id>_f` nor `<id>_b` is a reaction id present at call time. -/
def StoichiometricModel.freshSplitIds (m : StoichiometricModel) : Prop :=
  ∀ e ∈ m.reactions, e.2.reversible = true →
    (e.1 ++ "_f") ∉ odKeys m.reactions ∧ (e.1 ++ "_b") ∉ odKeys m.reactions

/-- Well-formedness of the constraint-based layer: the base invariants plus
one bounds entry per reaction (the constrained-add path installs it). -/
def ConstraintBasedModel.wf (m : ConstraintBasedModel) : Prop :=
  m.toStoichiometricModel.wf ∧ ∀ e ∈ m.reactions, odContains m.bounds e.1 = true

/-- Well-formedness of a model of any layer. -/
def AnyModel.wf : AnyModel → Prop
  | .stoich m => m.wf
  | .constraint m => m.wf
  | .gpr m => m.toConstraintBasedModel.wf

/-- Freshness of the generated split ids for a model of any layer. -/
def AnyModel.freshSplitIds : AnyModel → Prop
  | .stoich m => m.freshSplitIds
  | .constraint m => m.toStoichiometricModel.freshSplitIds
  | .gpr m => m.toStoichiometricModel.freshSplitIds

/-- Lookup after insert-or-replace. -/
theorem odFind_insert {K V : Type} [DecidableEq K] (d : List (K × V)) (k k' : K)
    (v : V) : odFind (odInsert d k v) k' = if k' = k then some v else odFind d k' := by
  induction d with
  | nil =>
    by_cases h : k' = k
    · subst h; simp [odInsert, odFind]
    · simp only [odInsert, odFind]
      rw [if_neg (Ne.symm h), if_neg h]
  | cons e rest ih =>
    by_cases h1 : e.1 = k
    · by_cases h2 : k' = k
      · subst h2; simp [odInsert, odFind, h1]
      · have h3 : ¬ e.1 = k' := by rw [h1]; exact Ne.symm h2
        simp only [odInsert, if_pos h1, odFind]
        rw [if_neg (Ne.symm h2), if_neg h2, if_neg h3]
    · by_cases h3 : e.1 = k'
      · have h2 : ¬ k' = k := by rw [← h3]; exact fun hh => h1 hh
        simp only [odInsert, if_neg h1, odFind, if_pos h3]
        rw [if_neg h2]
      · simp only [odInsert, if_neg h1, odFind, if_neg h3]
        exact ih

/-- Lookup after erase. -/
theorem odFind_erase {K V : Type} [DecidableEq K] (d : List (K × V)) (k k' : K) :
    odFind (odErase d k) k' = if k' = k then none else odFind d k' := by
  induction d with
  | nil => simp [odErase, odFind]
  | cons e rest ih =>
    by_cases h1 : e.1 = k
    · by_cases h2 : k' = k
      · simp only [odErase, if_pos h1, ih, if_pos h2]
      · have h3 : ¬ e.1 = k' := by rw [h1]; exact Ne.symm h2
        simp only [odErase, if_pos h1, ih, if_neg h2, odFind, if_neg h3]
    · by_cases h3 : e.1 = k'
      · have h2 : ¬ k' = k := by rw [← h3]; exact fun hh => h1 hh
        simp only [odErase, if_neg h1, odFind, if_pos h3, if_neg h2]
      · simp only [odErase, if_neg h1, odFind, if_neg h3, ih]

/-- Lookup after a guarded bulk deletion. -/
theorem odFind_eraseList {K V : Type} [DecidableEq K] (ks : List K)
    (d : List (K × V)) (k : K) :
    odFind (odEraseList d ks) k = if k ∈ ks then none else odFind d k := by
  induction ks generalizing d with
  | nil => simp [odEraseList]
  | cons k0 rest ih =>
    by_cases h : k ∈ rest
    · simp [odEraseList, ih, h, List.mem_cons]
    · by_cases h2 : k = k0
      · subst h2; simp [odEraseList, ih, h, odFind_erase]
      · simp [odEraseList, ih, h, h2, odFind_erase, List.mem_cons]

/-- A successful lookup yields an element of the list. -/
theorem odFind_mem {K V : Type} [DecidableEq K] {d : List (K × V)} {k : K} {v : V}
    (h : odFind d k = some v) : (k, v) ∈ d := by
  induction d with
  | nil => simp [odFind] at h
  | cons e rest ih =>
    by_cases h1 : e.1 = k
    · simp only [odFind, if_pos h1] at h
      have h2 : e.2 = v := by injection h
      have h3 : e = (k, v) := by
        calc e = (e.1, e.2) := rfl
          _ = (k, v) := by rw [h1, h2]
      rw [← h3]
      exact List.mem_cons_self e rest
    · simp only [odFind, if_neg h1] at h
      exact List.mem_cons_of_mem _ (ih h)

/-- A failed lookup means the key is absent. -/
theorem odFind_eq_none_iff {K V : Type} [DecidableEq K] (d : List (K × V)) (k : K) :
    odFind d k = none ↔ k ∉ odKeys d := by
  induction d with
  | nil => simp [odFind, odKeys]
  | cons e rest ih =>
    by_cases h1 : e.1 = k
    · simp only [odFind, if_pos h1, odKeys, List.map_cons, List.mem_cons]
      constructor
      · intro hh; exact absurd hh (by simp)
      · intro hh; exact absurd (Or.inl h1.symm) hh
    · simp only [odFind, if_neg h1, odKeys, List.map_cons, List.mem_cons]
      rw [ih]
      constructor
      · intro hh h2
        rcases h2 with h2 | h2
        · exact h1 h2.symm
        · exact hh h2
      · intro hh h2
        exact hh (Or.inr h2)

/-- Membership of the key list characterises `odContains`. -/
theorem odContains_iff {K V : Type} [DecidableEq K] (d : List (K × V)) (k : K) :
    odContains d k = true ↔ k ∈ odKeys d := by
  unfold odContains
  rcases h : odFind d k with _ | v
  · simpa [Option.isSome] using (odFind_eq_none_iff d k).mp h
  · simp [Option.isSome]
    have := odFind_mem h
    exact List.mem_map_of_mem Prod.fst this

/-- With unique keys, membership determines the lookup result. -/
theorem odFind_of_mem {K V : Type} [DecidableEq K] {d : List (K × V)}
    (hnd : (odKeys d).Nodup) {k : K} {v : V} (h : (k, v) ∈ d) :
    odFind d k = some v := by
  induction d with
  | nil => simp at h
  | cons e rest ih =>
    have hnd2 : ¬ e.1 ∈ odKeys rest ∧ (odKeys rest).Nodup := by
      have hx := hnd
      simp only [odKeys, List.map_cons, List.nodup_cons] at hx
      exact hx
    rcases List.mem_cons.mp h with h0 | h0
    · rw [← h0]; simp [odFind]
    · have hk : k ∈ odKeys rest := List.mem_map_of_mem Prod.fst h0
      have h1 : ¬ e.1 = k := fun hc => hnd2.1 (hc ▸ hk)
      simp only [odFind, if_neg h1]
      exact ih hnd2.2 h0

/-- With unique keys, two entries with the same key coincide. -/
theorem eq_of_key_eq {K V : Type} [DecidableEq K] {d : List (K × V)}
    (hnd : (odKeys d).Nodup) {e e' : K × V} (he : e ∈ d) (he' : e' ∈ d)
    (hk : e.1 = e'.1) : e = e' := by
  have h1 : odFind d e.1 = some e.2 := odFind_of_mem hnd he
  have h2 : odFind d e'.1 = some e'.2 := odFind_of_mem hnd he'
  rw [hk] at h1
  rw [h1] at h2
  have : e.2 = e'.2 := by injection h2
  calc e = (e.1, e.2) := rfl
    _ = (e'.1, e'.2) := by rw [hk, this]
    _ = e' := rfl

/-- Lookup after the reaction-membership edge sweep. -/
theorem odFind_stoichRemoveByRxn (ids : List String)
    (st : List ((String × String) × Rat)) (p : String × String) :
    odFind (stoichRemoveByRxn ids st) p
      = if p.2 ∈ ids then none else odFind st p := by
  induction st with
  | nil => simp [stoichRemoveByRxn, odFind]
  | cons e rest ih =>
    by_cases h3 : e.1.2 ∈ ids
    · rw [stoichRemoveByRxn, if_pos h3, ih]
      by_cases h2 : p.2 ∈ ids
      · simp [h2]
      · have h1 : ¬ e.1 = p := fun hh => h2 (hh ▸ h3)
        simp [h2, odFind, h1]
    · rw [stoichRemoveByRxn, if_neg h3]
      by_cases h1 : e.1 = p
      · have h2 : ¬ p.2 ∈ ids := by rw [← h1]; exact h3
        simp [odFind, h1, h2]
      · simp only [odFind, if_neg h1]
        rw [ih]

/-- Lookup after the metabolite-membership edge sweep. -/
theorem odFind_stoichRemoveByMet (ids : List String)
    (st : List ((String × String) × Rat)) (p : String × String) :
    odFind (stoichRemoveByMet ids st) p
      = if p.1 ∈ ids then none else odFind st p := by
  induction st with
  | nil => simp [stoichRemoveByMet, odFind]
  | cons e rest ih =>
    by_cases h3 : e.1.1 ∈ ids
    · rw [stoichRemoveByMet, if_pos h3, ih]
      by_cases h2 : p.1 ∈ ids
      · simp [h2]
      · have h1 : ¬ e.1 = p := fun hh => h2 (hh ▸ h3)
        simp [h2, odFind, h1]
    · rw [stoichRemoveByMet, if_neg h3]
      by_cases h1 : e.1 = p
      · have h2 : ¬ p.1 ∈ ids := by rw [← h1]; exact h3
        simp [odFind, h1, h2]
      · simp only [odFind, if_neg h1]
        rw [ih]

/-- Right cancellation of string concatenation. -/
theorem string_append_right_cancel {a b : String} {s : String}
    (h : a ++ s = b ++ s) : a = b := by
  have hd : a.data ++ s.data = b.data ++ s.data := by
    rw [← String.data_append, ← String.data_append, h]
  have h2 : a.data = b.data := List.append_cancel_right hd
  cases a; cases b
  exact congrArg String.mk h2

/-- The generated forward and backward ids never coincide. -/
theorem string_append_f_ne_b (a b : String) : a ++ "_f" ≠ b ++ "_b" := by
  intro h
  have hd : a.data ++ ['_', 'f'] = b.data ++ ['_', 'b'] := by
    have h1 := congrArg String.data h
    rw [String.data_append, String.data_append] at h1
    exact h1
  have h2 := congrArg List.reverse hd
  simp [List.reverse_append] at h2

/-- Keys after insert-or-replace: unchanged on replacement, appended on a
fresh key. -/
theorem odKeys_odInsert {K V : Type} [DecidableEq K] (d : List (K × V)) (k : K)
    (v : V) : odKeys (odInsert d k v)
      = if k ∈ odKeys d then odKeys d else odKeys d ++ [k] := by
  induction d with
  | nil => simp [odInsert, odKeys]
  | cons e rest ih =>
    by_cases h1 : e.1 = k
    · simp [odInsert, odKeys, h1]
    · have h2 : ¬ k = e.1 := fun hh => h1 hh.symm
      have ihx : List.map Prod.fst (odInsert rest k v)
          = if k ∈ List.map Prod.fst rest then List.map Prod.fst rest
            else List.map Prod.fst rest ++ [k] := by
        simpa [odKeys] using ih
      simp only [odInsert, if_neg h1, odKeys, List.map_cons, List.mem_cons]
      by_cases h3 : k ∈ List.map Prod.fst rest
      · rw [ihx, if_pos h3, if_pos (Or.inr h3)]
      · rw [ihx, if_neg h3, if_neg (by simp [h2, h3])]
        simp

/-- Insert-or-replace preserves key uniqueness. -/
theorem nodup_odInsert {K V : Type} [DecidableEq K] {d : List (K × V)}
    (h : (odKeys d).Nodup) (k : K) (v : V) : (odKeys (odInsert d k v)).Nodup := by
  rw [odKeys_odInsert]
  by_cases h1 : k ∈ odKeys d
  · simpa [h1] using h
  · simp only [h1, if_false]
    rw [List.nodup_append]
    exact ⟨h, List.nodup_singleton k, by simpa using h1⟩

/-- Row accumulated for one reaction by the lookup-table fold. -/
def rowFold (r : String) (st : List ((String × String) × Rat))
    (row0 : List (String × Rat)) : List (String × Rat) :=
  st.foldl (fun row e => if e.1.2 = r then odInsert row e.1.1 e.2 else row) row0

/-- The lookup-table fold updates each row independently. -/
theorem odFind_foldl_tableAdd (st : List ((String × String) × Rat))
    (t0 : List (String × List (String × Rat))) (r : String)
    (row0 : List (String × Rat)) (h : odFind t0 r = some row0) :
    odFind (st.foldl (fun t e => StoichiometricModel.tableAdd t e.1.2 e.1.1 e.2) t0) r
      = some (rowFold r st row0) := by
  induction st generalizing t0 row0 with
  | nil => simpa [rowFold] using h
  | cons e rest ih =>
    simp only [List.foldl_cons]
    by_cases he : e.1.2 = r
    · have hstep : StoichiometricModel.tableAdd t0 e.1.2 e.1.1 e.2
          = odInsert t0 r (odInsert row0 e.1.1 e.2) := by
        unfold StoichiometricModel.tableAdd
        rw [he, h]
      rw [hstep]
      have hfind : odFind (odInsert t0 r (odInsert row0 e.1.1 e.2)) r
          = some (odInsert row0 e.1.1 e.2) := by
        rw [odFind_insert]; simp
      rw [ih _ _ hfind]
      simp [rowFold, he]
    · have hstep : odFind (StoichiometricModel.tableAdd t0 e.1.2 e.1.1 e.2) r
          = some row0 := by
        unfold StoichiometricModel.tableAdd
        rcases hf : odFind t0 e.1.2 with _ | row2
        · exact h
        · rw [odFind_insert, if_neg (fun hh => he hh.symm)]
          exact h
      rw [ih _ _ hstep]
      simp [rowFold, he]

/-- Row folds keep key uniqueness. -/
theorem rowFold_nodup (r : String) (st : List ((String × String) × Rat))
    (row0 : List (String × Rat)) (h : (odKeys row0).Nodup) :
    (odKeys (rowFold r st row0)).Nodup := by
  induction st generalizing row0 with
  | nil => simpa [rowFold] using h
  | cons e rest ih =>
    simp only [rowFold, List.foldl_cons]
    by_cases he : e.1.2 = r
    · simpa [rowFold, he] using ih _ (nodup_odInsert h e.1.1 e.2)
    · simpa [rowFold, he] using ih _ h

/-- A row fold over edges of other keys does not change a lookup. -/
theorem rowFold_preserve (r : String) (st : List ((String × String) × Rat))
    (row : List (String × Rat)) (mi : String)
    (h : ∀ e ∈ st, ¬ (e.1.1 = mi ∧ e.1.2 = r)) :
    odFind (rowFold r st row) mi = odFind row mi := by
  induction st generalizing row with
  | nil => simp [rowFold]
  | cons e rest ih =>
    simp only [rowFold, List.foldl_cons]
    have hrest : ∀ e2 ∈ rest, ¬ (e2.1.1 = mi ∧ e2.1.2 = r) :=
      fun e2 he2 => h e2 (List.mem_cons_of_mem _ he2)
    by_cases he : e.1.2 = r
    · have hmi : ¬ e.1.1 = mi := fun hh => h e (List.mem_cons_self e rest) ⟨hh, he⟩
      have := ih (odInsert row e.1.1 e.2) hrest
      simp only [rowFold] at this
      rw [if_pos he, this, odFind_insert, if_neg (fun hh => hmi hh.symm)]
    · have := ih row hrest
      simp only [rowFold] at this
      rw [if_neg he, this]

/-- With unique edge keys, the accumulated row recovers each original
coefficient. -/
theorem rowFold_find (r : String) (st : List ((String × String) × Rat))
    (hnd : (st.map Prod.fst).Nodup) (mi : String) (c : Rat)
    (h : ((mi, r), c) ∈ st) (row0 : List (String × Rat))
    (h0 : mi ∉ odKeys row0) :
    odFind (rowFold r st row0) mi = some c := by
  induction st generalizing row0 with
  | nil => simp at h
  | cons e rest ih =>
    have hnd2 : e.1 ∉ rest.map Prod.fst ∧ (rest.map Prod.fst).Nodup := by
      have hx := hnd
      simp only [List.map_cons, List.nodup_cons] at hx
      exact hx
    simp only [rowFold, List.foldl_cons]
    rcases List.mem_cons.mp h with h1 | h1
    · have he12 : e.1.2 = r := by rw [← h1]
      have he11 : e.1.1 = mi := by rw [← h1]
      have he2 : e.2 = c := by rw [← h1]
      rw [if_pos he12]
      have hpre : ∀ e2 ∈ rest, ¬ (e2.1.1 = mi ∧ e2.1.2 = r) := by
        intro e2 he2mem hc
        apply hnd2.1
        have hx : e2.1 = (mi, r) := by
          calc e2.1 = (e2.1.1, e2.1.2) := rfl
            _ = (mi, r) := by rw [hc.1, hc.2]
        have hy : e.1 = (mi, r) := by rw [← h1]
        rw [hy, ← hx]
        exact List.mem_map_of_mem Prod.fst he2mem
      have := rowFold_preserve r rest (odInsert row0 e.1.1 e.2) mi hpre
      simp only [rowFold] at this
      rw [this, he11, he2, odFind_insert, if_pos rfl]
    · have hkey : ¬ e.1 = (mi, r) := by
        intro hh
        apply hnd2.1
        rw [hh]
        exact List.mem_map_of_mem Prod.fst h1
      by_cases he : e.1.2 = r
      · have hmi : ¬ e.1.1 = mi := by
          intro hh
          apply hkey
          calc e.1 = (e.1.1, e.1.2) := rfl
            _ = (mi, r) := by rw [hh, he]
        rw [if_pos he]
        apply ih hnd2.2 h1
        rw [odKeys_odInsert]
        by_cases hx : e.1.1 ∈ odKeys row0
        · simpa [hx] using h0
        · simp only [hx, if_false, List.mem_append, List.mem_singleton]
          intro hc
          rcases hc with hc | hc
          · exact h0 hc
          · exact hmi (hc ▸ rfl)
      · rw [if_neg he]
        exact ih hnd2.2 h1 row0 h0

/-- Lookup in the fresh-rows initial table. -/
theorem odFind_map_nil (l : List (String × Reaction)) (k : String) :
    odFind (l.map (fun e => (e.1, ([] : List (String × Rat))))) k
      = if k ∈ odKeys l then some [] else none := by
  induction l with
  | nil => simp [odFind, odKeys]
  | cons e rest ih =>
    by_cases h1 : e.1 = k
    · simp [odFind, odKeys, h1]
    · have h2 : ¬ k = e.1 := fun hh => h1 hh.symm
      simp only [List.map_cons, odFind, if_neg h1]
      rw [ih]
      simp only [odKeys, List.mem_cons]
      by_cases h3 : k ∈ List.map Prod.fst rest
      · simp [h3]
      · simp [h2, h3]

/-- Characterisation of the snapshot lookup table: each reaction key owns a
row with unique metabolite keys recovering every original coefficient. -/
theorem table_row_spec (m : StoichiometricModel)
    (hnd : (m.stoichiometry.map Prod.fst).Nodup) (r : String)
    (hr : r ∈ odKeys m.reactions) :
    ∃ row, odFind m.reaction_metabolite_lookup_table r = some row ∧
      (odKeys row).Nodup ∧
      ∀ mi c, ((mi, r), c) ∈ m.stoichiometry → odFind row mi = some c := by
  unfold StoichiometricModel.reaction_metabolite_lookup_table
  have h0 : odFind (m.reactions.map (fun e => (e.1, ([] : List (String × Rat))))) r
      = some [] := by
    rw [odFind_map_nil]
    simp [hr]
  refine ⟨rowFold r m.stoichiometry [], odFind_foldl_tableAdd _ _ _ _ h0,
    rowFold_nodup _ _ _ (by simp [odKeys]), ?_⟩
  intro mi c hmem
  exact rowFold_find r m.stoichiometry hnd mi c hmem [] (by simp [odKeys])

/-- The edge loop leaves edges of other reactions untouched. -/
theorem edgeFold_preserve (f b : String) (row : List (String × Rat))
    (st : List ((String × String) × Rat)) (p : String × String)
    (hf : p.2 ≠ f) (hb : p.2 ≠ b) :
    odFind (edgeFold f b row st) p = odFind st p := by
  induction row generalizing st with
  | nil => simp [edgeFold]
  | cons e rest ih =>
    simp only [edgeFold, List.foldl_cons]
    have hx := ih (odInsert (odInsert st (e.1, f) e.2) (e.1, b) (-e.2))
    simp only [edgeFold] at hx
    rw [hx, odFind_insert, if_neg (fun hh => hb (congrArg Prod.snd hh)),
      odFind_insert, if_neg (fun hh => hf (congrArg Prod.snd hh))]

/-- The edge loop over other metabolites leaves a metabolite's edges
untouched. -/
theorem edgeFold_preserve_mi (f b : String) (row : List (String × Rat))
    (st : List ((String × String) × Rat)) (mi x : String)
    (h : mi ∉ odKeys row) :
    odFind (edgeFold f b row st) (mi, x) = odFind st (mi, x) := by
  induction row generalizing st with
  | nil => simp [edgeFold]
  | cons e rest ih =>
    have h2 : ¬ e.1 = mi ∧ mi ∉ odKeys rest := by
      constructor
      · intro hh; exact h (by simp [odKeys, hh])
      · intro hh; exact h (by simp [odKeys]; exact Or.inr (by simpa [odKeys] using hh))
    simp only [edgeFold, List.foldl_cons]
    have hx := ih (odInsert (odInsert st (e.1, f) e.2) (e.1, b) (-e.2)) h2.2
    simp only [edgeFold] at hx
    have hb1 : ¬ (mi, x) = (e.1, b) := fun hh => h2.1 (congrArg Prod.fst hh).symm
    have hf1 : ¬ (mi, x) = (e.1, f) := fun hh => h2.1 (congrArg Prod.fst hh).symm
    rw [hx, odFind_insert, if_neg hb1, odFind_insert, if_neg hf1]

/-- The edge loop installs the original coefficient on the forward id. -/
theorem edgeFold_find_fwd (f b : String) (hfb : f ≠ b)
    (row : List (String × Rat)) (hnd : (odKeys row).Nodup)
    (st : List ((String × String) × Rat)) (mi : String) (c : Rat)
    (h : (mi, c) ∈ row) :
    odFind (edgeFold f b row st) (mi, f) = some c := by
  induction row generalizing st with
  | nil => simp at h
  | cons e rest ih =>
    have hnd2 : e.1 ∉ List.map Prod.fst rest ∧ (List.map Prod.fst rest).Nodup := by
      have hx := hnd
      simp only [odKeys, List.map_cons, List.nodup_cons] at hx
      exact hx
    simp only [edgeFold, List.foldl_cons]
    rcases List.mem_cons.mp h with h1 | h1
    · have he1 : e.1 = mi := by rw [← h1]
      have he2 : e.2 = c := by rw [← h1]
      have hx := edgeFold_preserve_mi f b rest
        (odInsert (odInsert st (e.1, f) e.2) (e.1, b) (-e.2)) mi f
        (by simpa [odKeys, ← he1] using hnd2.1)
      simp only [edgeFold] at hx
      have hb1 : ¬ (mi, f) = (e.1, b) := fun hh => hfb (congrArg Prod.snd hh)
      have hf1 : (mi, f) = (e.1, f) := by rw [he1]
      rw [hx, odFind_insert, if_neg hb1, odFind_insert, if_pos hf1, he2]
    · exact ih hnd2.2 (odInsert (odInsert st (e.1, f) e.2) (e.1, b) (-e.2)) h1

/-- The edge loop installs the negated coefficient on the backward id. -/
theorem edgeFold_find_bwd (f b : String)
    (row : List (String × Rat)) (hnd : (odKeys row).Nodup)
    (st : List ((String × String) × Rat)) (mi : String) (c : Rat)
    (h : (mi, c) ∈ row) :
    odFind (edgeFold f b row st) (mi, b) = some (-c) := by
  induction row generalizing st with
  | nil => simp at h
  | cons e rest ih =>
    have hnd2 : e.1 ∉ List.map Prod.fst rest ∧ (List.map Prod.fst rest).Nodup := by
      have hx := hnd
      simp only [odKeys, List.map_cons, List.nodup_cons] at hx
      exact hx
    simp only [edgeFold, List.foldl_cons]
    rcases List.mem_cons.mp h with h1 | h1
    · have he1 : e.1 = mi := by rw [← h1]
      have he2 : e.2 = c := by rw [← h1]
      have hx := edgeFold_preserve_mi f b rest
        (odInsert (odInsert st (e.1, f) e.2) (e.1, b) (-e.2)) mi b
        (by simpa [odKeys, ← he1] using hnd2.1)
      simp only [edgeFold] at hx
      have hb1 : (mi, b) = (e.1, b) := by rw [he1]
      rw [hx, odFind_insert, if_pos hb1, he2]
    · exact ih hnd2.2 (odInsert (odInsert st (e.1, f) e.2) (e.1, b) (-e.2)) h1

/-- Reaction lookups after one split step at the stoichiometric layer. -/
theorem splitStepS_reactions (table : List (String × List (String × Rat)))
    (m : StoichiometricModel) (r_id : String) (rx : Reaction) (k : String) :
    odFind (splitStepS table m r_id rx).reactions k
      = if k = r_id then none
        else if k = rx.id ++ "_b" then some (Reaction.mk (rx.id ++ "_b") rx.name false)
        else if k = rx.id ++ "_f" then some (Reaction.mk (rx.id ++ "_f") rx.name false)
        else odFind m.reactions k := by
  simp only [splitStepS, StoichiometricModel.add_reaction,
    StoichiometricModel.remove_reaction, StoichiometricModel.remove_reactions]
  rw [odFind_eraseList]
  by_cases h1 : k = r_id
  · simp [h1]
  · simp only [List.mem_singleton, h1, if_false]
    rw [odFind_insert, odFind_insert]

/-- Stoichiometry lookups after one split step at the stoichiometric
layer: edges of the removed reaction are gone, the rest is the edge fold. -/
theorem splitStepS_stoich (table : List (String × List (String × Rat)))
    (m : StoichiometricModel) (r_id : String) (rx : Reaction)
    (p : String × String) :
    odFind (splitStepS table m r_id rx).stoichiometry p
      = if p.2 = r_id then none
        else odFind (edgeFold (rx.id ++ "_f") (rx.id ++ "_b")
          ((odFind table r_id).getD []) m.stoichiometry) p := by
  simp only [splitStepS, StoichiometricModel.add_reaction,
    StoichiometricModel.remove_reaction, StoichiometricModel.remove_reactions]
  rw [odFind_stoichRemoveByRxn]
  by_cases h1 : p.2 = r_id
  · simp [h1]
  · simp [h1]

/-- Other fields after one split step at the stoichiometric layer. -/
theorem splitStepS_frame (table : List (String × List (String × Rat)))
    (m : StoichiometricModel) (r_id : String) (rx : Reaction) :
    (splitStepS table m r_id rx).metabolites = m.metabolites ∧
    (splitStepS table m r_id rx).compartments = m.compartments := by
  simp [splitStepS, StoichiometricModel.add_reaction,
    StoichiometricModel.remove_reaction, StoichiometricModel.remove_reactions]

/-- The generated ids of one reaction never coincide. -/
theorem string_f_ne_b (a : String) : a ++ "_f" ≠ a ++ "_b" := by
  intro h
  have hd : a.data ++ ("_f" : String).data = a.data ++ ("_b" : String).data := by
    rw [← String.data_append, ← String.data_append, h]
  have h2 := List.append_cancel_left hd
  simp at h2

/-- A key is untouched by the split loop over the given items: for every
reversible item it differs from the item id and from both generated ids. -/
def untouchedRxn (k : String) (rest : List (String × Reaction)) : Prop :=
  ∀ e ∈ rest, e.2.reversible = true →
    k ≠ e.1 ∧ k ≠ e.2.id ++ "_f" ∧ k ≠ e.2.id ++ "_b"

/-- An original id outside the remaining items is untouched by them. -/
theorem untouchedRxn_orig (K : List String) (rest : List (String × Reaction))
    (hsub : ∀ e ∈ rest, e.1 ∈ K)
    (hid : ∀ e ∈ rest, e.2.id = e.1)
    (hfresh : ∀ e ∈ rest, e.2.reversible = true →
      (e.1 ++ "_f") ∉ K ∧ (e.1 ++ "_b") ∉ K)
    (k : String) (hkK : k ∈ K) (hknot : k ∉ odKeys rest) :
    untouchedRxn k rest := by
  intro e he hrev
  refine ⟨?_, ?_, ?_⟩
  · intro hh
    exact hknot (hh ▸ List.mem_map_of_mem Prod.fst he)
  · intro hh
    rw [hid e he] at hh
    exact (hfresh e he hrev).1 (hh ▸ hkK)
  · intro hh
    rw [hid e he] at hh
    exact (hfresh e he hrev).2 (hh ▸ hkK)

/-- A generated forward id is untouched by the remaining items. -/
theorem untouchedRxn_fwd (K : List String) (rest : List (String × Reaction))
    (hsub : ∀ e ∈ rest, e.1 ∈ K)
    (hid : ∀ e ∈ rest, e.2.id = e.1)
    (r_id : String) (hrnot : r_id ∉ odKeys rest)
    (hfreshF : (r_id ++ "_f") ∉ K) :
    untouchedRxn (r_id ++ "_f") rest := by
  intro e he hrev
  refine ⟨?_, ?_, ?_⟩
  · intro hh
    exact hfreshF (hh ▸ hsub e he)
  · intro hh
    rw [hid e he] at hh
    exact hrnot ((string_append_right_cancel hh) ▸ List.mem_map_of_mem Prod.fst he)
  · intro hh
    rw [hid e he] at hh
    exact string_append_f_ne_b r_id e.1 hh

/-- A generated backward id is untouched by the remaining items. -/
theorem untouchedRxn_bwd (K : List String) (rest : List (String × Reaction))
    (hsub : ∀ e ∈ rest, e.1 ∈ K)
    (hid : ∀ e ∈ rest, e.2.id = e.1)
    (r_id : String) (hrnot : r_id ∉ odKeys rest)
    (hfreshB : (r_id ++ "_b") ∉ K) :
    untouchedRxn (r_id ++ "_b") rest := by
  intro e he hrev
  refine ⟨?_, ?_, ?_⟩
  · intro hh
    exact hfreshB (hh ▸ hsub e he)
  · intro hh
    rw [hid e he] at hh
    exact string_append_f_ne_b e.1 r_id hh.symm
  · intro hh
    rw [hid e he] at hh
    exact hrnot ((string_append_right_cancel hh) ▸ List.mem_map_of_mem Prod.fst he)

/-- Reaction lookups at untouched keys survive the stoichiometric loop. -/
theorem irrevGoS_reactions_frame (table : List (String × List (String × Rat)))
    (rest : List (String × Reaction)) (m : StoichiometricModel)
    (mp : List (String × (String × String))) (k : String)
    (hk : untouchedRxn k rest) :
    odFind (irrevGoS table rest m mp).1.reactions k = odFind m.reactions k := by
  induction rest generalizing m mp with
  | nil => simp [irrevGoS]
  | cons e0 rest' ih =>
    obtain ⟨r_id, rx⟩ := e0
    have hk' : untouchedRxn k rest' :=
      fun e he => hk e (List.mem_cons_of_mem _ he)
    rcases hrev : rx.reversible with _ | _
    · simp only [irrevGoS, hrev, if_false]
      exact ih _ _ hk'
    · simp only [irrevGoS, hrev, if_true]
      rw [ih _ _ hk', splitStepS_reactions]
      obtain ⟨hk1, hk2, hk3⟩ := hk (r_id, rx) (List.mem_cons_self _ _) hrev
      rw [if_neg hk1, if_neg hk3, if_neg hk2]

/-- Stoichiometry lookups on untouched reactions survive the loop. -/
theorem irrevGoS_stoich_frame (table : List (String × List (String × Rat)))
    (rest : List (String × Reaction)) (m : StoichiometricModel)
    (mp : List (String × (String × String))) (p : String × String)
    (hk : untouchedRxn p.2 rest) :
    odFind (irrevGoS table rest m mp).1.stoichiometry p
      = odFind m.stoichiometry p := by
  induction rest generalizing m mp with
  | nil => simp [irrevGoS]
  | cons e0 rest' ih =>
    obtain ⟨r_id, rx⟩ := e0
    have hk' : untouchedRxn p.2 rest' :=
      fun e he => hk e (List.mem_cons_of_mem _ he)
    rcases hrev : rx.reversible with _ | _
    · simp only [irrevGoS, hrev, if_false]
      exact ih _ _ hk'
    · simp only [irrevGoS, hrev, if_true]
      obtain ⟨hk1, hk2, hk3⟩ := hk (r_id, rx) (List.mem_cons_self _ _) hrev
      rw [ih _ _ hk', splitStepS_stoich, if_neg hk1,
        edgeFold_preserve _ _ _ _ _ hk2 hk3]

/-- Mapping entries at keys of non-remaining items survive the loop. -/
theorem irrevGoS_mapping_frame (table : List (String × List (String × Rat)))
    (rest : List (String × Reaction)) (m : StoichiometricModel)
    (mp : List (String × (String × String))) (k : String)
    (hk : ∀ e ∈ rest, e.2.reversible = true → k ≠ e.1) :
    odFind (irrevGoS table rest m mp).2 k = odFind mp k := by
  induction rest generalizing m mp with
  | nil => simp [irrevGoS]
  | cons e0 rest' ih =>
    obtain ⟨r_id, rx⟩ := e0
    have hk' : ∀ e ∈ rest', e.2.reversible = true → k ≠ e.1 :=
      fun e he => hk e (List.mem_cons_of_mem _ he)
    rcases hrev : rx.reversible with _ | _
    · simp only [irrevGoS, hrev, if_false]
      exact ih _ _ hk'
    · simp only [irrevGoS, hrev, if_true]
      rw [ih _ _ hk', odFind_insert,
        if_neg (hk (r_id, rx) (List.mem_cons_self _ _) hrev)]

/-- Nodup keys of a cons decompose. -/
theorem keys_cons_nodup {A : Type} {e : String × A} {rest : List (String × A)}
    (hnd : (odKeys (e :: rest)).Nodup) :
    e.1 ∉ odKeys rest ∧ (odKeys rest).Nodup := by
  have hx := hnd
  simp only [odKeys, List.map_cons, List.nodup_cons] at hx
  exact hx

/-- After the loop, every reversible snapshot reaction is gone and its two
generated reactions are present, irreversible, with the original name. -/
theorem irrevGoS_reactions_est (table : List (String × List (String × Rat)))
    (K : List String) (rest : List (String × Reaction))
    (m : StoichiometricModel) (mp : List (String × (String × String)))
    (hsub : ∀ e ∈ rest, e.1 ∈ K)
    (hid : ∀ e ∈ rest, e.2.id = e.1)
    (hnd : (odKeys rest).Nodup)
    (hfresh : ∀ e ∈ rest, e.2.reversible = true →
      (e.1 ++ "_f") ∉ K ∧ (e.1 ++ "_b") ∉ K) :
    ∀ e ∈ rest, e.2.reversible = true →
      odFind (irrevGoS table rest m mp).1.reactions e.1 = none ∧
      odFind (irrevGoS table rest m mp).1.reactions (e.1 ++ "_f")
        = some (Reaction.mk (e.1 ++ "_f") e.2.name false) ∧
      odFind (irrevGoS table rest m mp).1.reactions (e.1 ++ "_b")
        = some (Reaction.mk (e.1 ++ "_b") e.2.name false) := by
  induction rest generalizing m mp with
  | nil => intro e he; simp at he
  | cons e0 rest' ih =>
    obtain ⟨r_id, rx⟩ := e0
    have hnd2 := keys_cons_nodup hnd
    have hsub' : ∀ e ∈ rest', e.1 ∈ K := fun e he => hsub e (List.mem_cons_of_mem _ he)
    have hid' : ∀ e ∈ rest', e.2.id = e.1 := fun e he => hid e (List.mem_cons_of_mem _ he)
    have hfresh' : ∀ e ∈ rest', e.2.reversible = true →
        (e.1 ++ "_f") ∉ K ∧ (e.1 ++ "_b") ∉ K :=
      fun e he => hfresh e (List.mem_cons_of_mem _ he)
    intro e he hrev
    rcases List.mem_cons.mp he with h1 | h1
    · subst h1
      dsimp only at hrev ⊢
      have hidh : rx.id = r_id := hid (r_id, rx) (List.mem_cons_self _ _)
      have hKr : r_id ∈ K := hsub (r_id, rx) (List.mem_cons_self _ _)
      have hfr : (r_id ++ "_f") ∉ K ∧ (r_id ++ "_b") ∉ K :=
        hfresh (r_id, rx) (List.mem_cons_self _ _) hrev
      simp only [irrevGoS, hrev, if_true]
      have hne_fr : (r_id ++ "_f") ≠ r_id := fun hh => hfr.1 (by rw [hh]; exact hKr)
      have hne_br : (r_id ++ "_b") ≠ r_id := fun hh => hfr.2 (by rw [hh]; exact hKr)
      have hne_fb : (r_id ++ "_f") ≠ (r_id ++ "_b") := string_f_ne_b r_id
      refine ⟨?_, ?_, ?_⟩
      · rw [irrevGoS_reactions_frame _ _ _ _ _
          (untouchedRxn_orig K rest' hsub' hid' hfresh' r_id hKr hnd2.1),
          splitStepS_reactions, if_pos rfl]
      · rw [irrevGoS_reactions_frame _ _ _ _ _
          (untouchedRxn_fwd K rest' hsub' hid' r_id hnd2.1 hfr.1),
          splitStepS_reactions, hidh, if_neg hne_fr, if_neg hne_fb, if_pos rfl]
      · rw [irrevGoS_reactions_frame _ _ _ _ _
          (untouchedRxn_bwd K rest' hsub' hid' r_id hnd2.1 hfr.2),
          splitStepS_reactions, hidh, if_neg hne_br, if_pos rfl]
    · rcases hrev0 : rx.reversible with _ | _
      · simp only [irrevGoS, hrev0, if_false]
        exact ih _ _ hsub' hid' hnd2.2 hfresh' e h1 hrev
      · simp only [irrevGoS, hrev0, if_true]
        exact ih _ _ hsub' hid' hnd2.2 hfresh' e h1 hrev

/-- After the loop, the mapping binds every reversible snapshot reaction to
its generated pair. -/
theorem irrevGoS_mapping_est (table : List (String × List (String × Rat)))
    (rest : List (String × Reaction))
    (m : StoichiometricModel) (mp : List (String × (String × String)))
    (hid : ∀ e ∈ rest, e.2.id = e.1)
    (hnd : (odKeys rest).Nodup) :
    ∀ e ∈ rest, e.2.reversible = true →
      odFind (irrevGoS table rest m mp).2 e.1
        = some (e.1 ++ "_f", e.1 ++ "_b") := by
  induction rest generalizing m mp with
  | nil => intro e he; simp at he
  | cons e0 rest' ih =>
    obtain ⟨r_id, rx⟩ := e0
    have hnd2 := keys_cons_nodup hnd
    have hid' : ∀ e ∈ rest', e.2.id = e.1 := fun e he => hid e (List.mem_cons_of_mem _ he)
    intro e he hrev
    rcases List.mem_cons.mp he with h1 | h1
    · subst h1
      dsimp only at hrev ⊢
      have hidh : rx.id = r_id := hid (r_id, rx) (List.mem_cons_self _ _)
      simp only [irrevGoS, hrev, if_true]
      have hfr : ∀ e2 ∈ rest', e2.2.reversible = true → r_id ≠ e2.1 := by
        intro e2 he2 _ hh
        have hmem : r_id ∈ odKeys rest' := by
          rw [hh]
          exact List.mem_map_of_mem Prod.fst he2
        exact hnd2.1 hmem
      rw [irrevGoS_mapping_frame _ _ _ _ _ hfr, odFind_insert, if_pos rfl, hidh]
    · rcases hrev0 : rx.reversible with _ | _
      · simp only [irrevGoS, hrev0, if_false]
        exact ih _ _ hid' hnd2.2 e h1 hrev
      · simp only [irrevGoS, hrev0, if_true]
        exact ih _ _ hid' hnd2.2 e h1 hrev

/-- Every mapping entry produced by the loop comes from a reversible
snapshot reaction. -/
theorem irrevGoS_mapping_sub (table : List (String × List (String × Rat)))
    (rest : List (String × Reaction))
    (m : StoichiometricModel) (mp : List (String × (String × String)))
    (k : String) (v : String × String)
    (h : odFind (irrevGoS table rest m mp).2 k = some v) :
    odFind mp k = some v ∨
      ∃ e, e ∈ rest ∧ e.1 = k ∧ e.2.reversible = true ∧
        v = (e.2.id ++ "_f", e.2.id ++ "_b") := by
  induction rest generalizing m mp with
  | nil =>
    simp only [irrevGoS] at h
    exact Or.inl h
  | cons e0 rest' ih =>
    obtain ⟨r_id, rx⟩ := e0
    rcases hrev : rx.reversible with _ | _
    · simp only [irrevGoS, hrev, if_false] at h
      rcases ih _ _ h with h2 | ⟨e, he, hk, hrev2, hv⟩
      · exact Or.inl h2
      · exact Or.inr ⟨e, List.mem_cons_of_mem _ he, hk, hrev2, hv⟩
    · simp only [irrevGoS, hrev, if_true] at h
      rcases ih _ _ h with h2 | ⟨e, he, hk, hrev2, hv⟩
      · rw [odFind_insert] at h2
        by_cases hk0 : k = r_id
        · refine Or.inr ⟨(r_id, rx), List.mem_cons_self _ _, hk0.symm, hrev, ?_⟩
          rw [if_pos hk0] at h2
          injection h2 with h3
          rw [← h3]
        · rw [if_neg hk0] at h2
          exact Or.inl h2
      · exact Or.inr ⟨e, List.mem_cons_of_mem _ he, hk, hrev2, hv⟩

/-- After the loop, each snapshot edge of a reversible reaction appears on
the generated forward reaction with the same coefficient and on the
backward reaction negated. -/
theorem irrevGoS_stoich_est (table : List (String × List (String × Rat)))
    (K : List String) (rest : List (String × Reaction))
    (m : StoichiometricModel) (mp : List (String × (String × String)))
    (hsub : ∀ e ∈ rest, e.1 ∈ K)
    (hid : ∀ e ∈ rest, e.2.id = e.1)
    (hnd : (odKeys rest).Nodup)
    (hfresh : ∀ e ∈ rest, e.2.reversible = true →
      (e.1 ++ "_f") ∉ K ∧ (e.1 ++ "_b") ∉ K) :
    ∀ e ∈ rest, e.2.reversible = true →
      ∀ row, odFind table e.1 = some row → (odKeys row).Nodup →
        ∀ mi c, odFind row mi = some c →
          odFind (irrevGoS table rest m mp).1.stoichiometry (mi, e.1 ++ "_f")
            = some c ∧
          odFind (irrevGoS table rest m mp).1.stoichiometry (mi, e.1 ++ "_b")
            = some (-c) := by
  induction rest generalizing m mp with
  | nil => intro e he; simp at he
  | cons e0 rest' ih =>
    obtain ⟨r_id, rx⟩ := e0
    have hnd2 := keys_cons_nodup hnd
    have hsub' : ∀ e ∈ rest', e.1 ∈ K := fun e he => hsub e (List.mem_cons_of_mem _ he)
    have hid' : ∀ e ∈ rest', e.2.id = e.1 := fun e he => hid e (List.mem_cons_of_mem _ he)
    have hfresh' : ∀ e ∈ rest', e.2.reversible = true →
        (e.1 ++ "_f") ∉ K ∧ (e.1 ++ "_b") ∉ K :=
      fun e he => hfresh e (List.mem_cons_of_mem _ he)
    intro e he hrev row hrow hrownd mi c hmic
    rcases List.mem_cons.mp he with h1 | h1
    · subst h1
      dsimp only at hrev hrow ⊢
      have hidh : rx.id = r_id := hid (r_id, rx) (List.mem_cons_self _ _)
      have hKr : r_id ∈ K := hsub (r_id, rx) (List.mem_cons_self _ _)
      have hfr : (r_id ++ "_f") ∉ K ∧ (r_id ++ "_b") ∉ K :=
        hfresh (r_id, rx) (List.mem_cons_self _ _) hrev
      have hne_fr : (r_id ++ "_f") ≠ r_id := fun hh => hfr.1 (by rw [hh]; exact hKr)
      have hne_br : (r_id ++ "_b") ≠ r_id := fun hh => hfr.2 (by rw [hh]; exact hKr)
      have hne_fb : (r_id ++ "_f") ≠ (r_id ++ "_b") := string_f_ne_b r_id
      simp only [irrevGoS, hrev, if_true]
      constructor
      · rw [irrevGoS_stoich_frame _ _ _ _ (mi, r_id ++ "_f")
          (untouchedRxn_fwd K rest' hsub' hid' r_id hnd2.1 hfr.1),
          splitStepS_stoich, if_neg hne_fr, hidh, hrow]
        exact edgeFold_find_fwd _ _ hne_fb row hrownd _ mi c (odFind_mem hmic)
      · rw [irrevGoS_stoich_frame _ _ _ _ (mi, r_id ++ "_b")
          (untouchedRxn_bwd K rest' hsub' hid' r_id hnd2.1 hfr.2),
          splitStepS_stoich, if_neg hne_br, hidh, hrow]
        exact edgeFold_find_bwd _ _ row hrownd _ mi c (odFind_mem hmic)
    · rcases hrev0 : rx.reversible with _ | _
      · simp only [irrevGoS, hrev0, if_false]
        exact ih _ _ hsub' hid' hnd2.2 hfresh' e h1 hrev row hrow hrownd mi c hmic
      · simp only [irrevGoS, hrev0, if_true]
        exact ih _ _ hsub' hid' hnd2.2 hfresh' e h1 hrev row hrow hrownd mi c hmic

/-- Bounds of a model after one successful constraint-based split step. -/
def stepCBounds (m : ConstraintBasedModel) (r_id : String) (rx : Reaction)
    (lb ub : Option Rat) : List (String × (Option Rat × Option Rat)) :=
  odErase (odInsert (odInsert (odInsert (odInsert m.bounds
    (rx.id ++ "_f") (none, none)) (rx.id ++ "_b") (none, none))
    (rx.id ++ "_f") (some 0, ub)) (rx.id ++ "_b") (some 0, negBound lb)) r_id

/-- One reversible step of the constraint-based loop succeeds when the
reaction has a bounds entry, and its effect on the graph layer is exactly
the stoichiometric split step. -/
theorem irrevGoC_cons_rev (table : List (String × List (String × Rat)))
    (r_id : String) (rx : Reaction) (rest : List (String × Reaction))
    (m : ConstraintBasedModel) (mp : List (String × (String × String)))
    (hrev : rx.reversible = true)
    (hfw : (rx.id ++ "_f") ≠ r_id) (hbw : (rx.id ++ "_b") ≠ r_id)
    (lb ub : Option Rat) (hb : odFind m.bounds r_id = some (lb, ub)) :
    irrevGoC table ((r_id, rx) :: rest) m mp
      = irrevGoC table rest
          { toStoichiometricModel := splitStepS table m.toStoichiometricModel r_id rx,
            bounds := stepCBounds m r_id rx lb ub }
          (odInsert mp r_id (rx.id ++ "_f", rx.id ++ "_b")) := by
  have h4 : odFind (odInsert (odInsert m.bounds (rx.id ++ "_f")
      ((none : Option Rat), (none : Option Rat))) (rx.id ++ "_b")
      ((none : Option Rat), (none : Option Rat))) r_id = some (lb, ub) := by
    rw [odFind_insert, if_neg (fun hh => hbw hh.symm),
      odFind_insert, if_neg (fun hh => hfw hh.symm)]
    exact hb
  have hg1 : odContains (odInsert (odInsert m.reactions (rx.id ++ "_f")
      (Reaction.mk (rx.id ++ "_f") rx.name false)) (rx.id ++ "_b")
      (Reaction.mk (rx.id ++ "_b") rx.name false)) (rx.id ++ "_f") = true := by
    unfold odContains
    rw [odFind_insert]
    by_cases hh : (rx.id ++ "_f") = (rx.id ++ "_b")
    · rw [if_pos hh]; rfl
    · rw [if_neg hh, odFind_insert, if_pos rfl]; rfl
  have hg2 : odContains (odInsert (odInsert m.reactions (rx.id ++ "_f")
      (Reaction.mk (rx.id ++ "_f") rx.name false)) (rx.id ++ "_b")
      (Reaction.mk (rx.id ++ "_b") rx.name false)) (rx.id ++ "_b") = true := by
    unfold odContains
    rw [odFind_insert, if_pos rfl]
    rfl
  have h6 : odContains (odInsert (odInsert (odInsert (odInsert m.bounds
      (rx.id ++ "_f") ((none : Option Rat), (none : Option Rat))) (rx.id ++ "_b")
      ((none : Option Rat), (none : Option Rat)))
      (rx.id ++ "_f") (some 0, ub)) (rx.id ++ "_b") (some 0, negBound lb)) r_id
      = true := by
    unfold odContains
    rw [odFind_insert, if_neg (fun hh => hbw hh.symm),
      odFind_insert, if_neg (fun hh => hfw hh.symm), h4]
    rfl
  simp only [irrevGoC, hrev, if_true, ConstraintBasedModel.add_reaction,
    StoichiometricModel.add_reaction, ConstraintBasedModel.set_flux_bounds,
    ConstraintBasedModel.remove_reaction, ConstraintBasedModel.remove_reactions,
    StoichiometricModel.remove_reactions, odDelAll, odDelStrict,
    h4, hg1, hg2, h6, splitStepS, StoichiometricModel.remove_reaction,
    stepCBounds]

/-- A non-reversible item is skipped by the constraint-based loop. -/
theorem irrevGoC_cons_nonrev (table : List (String × List (String × Rat)))
    (r_id : String) (rx : Reaction) (rest : List (String × Reaction))
    (m : ConstraintBasedModel) (mp : List (String × (String × String)))
    (hrev : rx.reversible = false) :
    irrevGoC table ((r_id, rx) :: rest) m mp = irrevGoC table rest m mp := by
  simp [irrevGoC, hrev]

/-- Bounds lookups at keys untouched by one constraint-based split step. -/
theorem stepCBounds_find (m : ConstraintBasedModel) (r_id : String)
    (rx : Reaction) (lb ub : Option Rat) (k : String)
    (h1 : k ≠ r_id) (h2 : k ≠ rx.id ++ "_f") (h3 : k ≠ rx.id ++ "_b") :
    odFind (stepCBounds m r_id rx lb ub) k = odFind m.bounds k := by
  unfold stepCBounds
  rw [odFind_erase, if_neg h1, odFind_insert, if_neg h3, odFind_insert, if_neg h2,
    odFind_insert, if_neg h3, odFind_insert, if_neg h2]

/-- Forward bounds installed by one constraint-based split step. -/
theorem stepCBounds_fwd (m : ConstraintBasedModel) (r_id : String)
    (rx : Reaction) (lb ub : Option Rat)
    (hfr : rx.id ++ "_f" ≠ r_id) :
    odFind (stepCBounds m r_id rx lb ub) (rx.id ++ "_f") = some (some 0, ub) := by
  unfold stepCBounds
  rw [odFind_erase, if_neg hfr, odFind_insert, if_neg (string_f_ne_b rx.id),
    odFind_insert, if_pos rfl]

/-- Backward bounds installed by one constraint-based split step. -/
theorem stepCBounds_bwd (m : ConstraintBasedModel) (r_id : String)
    (rx : Reaction) (lb ub : Option Rat)
    (hbr : rx.id ++ "_b" ≠ r_id) :
    odFind (stepCBounds m r_id rx lb ub) (rx.id ++ "_b")
      = some (some 0, negBound lb) := by
  unfold stepCBounds
  rw [odFind_erase, if_neg hbr, odFind_insert, if_pos rfl]

/-- The original bounds entry is deleted by one constraint-based split step. -/
theorem stepCBounds_orig (m : ConstraintBasedModel) (r_id : String)
    (rx : Reaction) (lb ub : Option Rat) :
    odFind (stepCBounds m r_id rx lb ub) r_id = none := by
  unfold stepCBounds
  rw [odFind_erase, if_pos rfl]

/-- State reached by one reversible GPR split step just before the fatal
`model.add_rule` call: both generated reactions added through the GPR
`add_reaction` override (installing unset rules and default bounds), edges
mirrored. -/
def splitStepG (table : List (String × List (String × Rat)))
    (m : GPRConstrainedModel) (r_id : String) (rx : Reaction) :
    GPRConstrainedModel :=
  { m with
    toConstraintBasedModel := { m.toConstraintBasedModel with
      toStoichiometricModel := { m.toStoichiometricModel with
        reactions := odInsert (odInsert m.reactions (rx.id ++ "_f")
          (Reaction.mk (rx.id ++ "_f") rx.name false)) (rx.id ++ "_b")
          (Reaction.mk (rx.id ++ "_b") rx.name false),
        stoichiometry := edgeFold (rx.id ++ "_f") (rx.id ++ "_b")
          ((odFind table r_id).getD []) m.stoichiometry },
      bounds := odInsert (odInsert m.bounds (rx.id ++ "_f") (none, none))
        (rx.id ++ "_b") (none, none) },
    rules := odInsert (odInsert m.rules (rx.id ++ "_f") none)
      (rx.id ++ "_b") none,
    rule_functions := odInsert (odInsert m.rule_functions (rx.id ++ "_f")
      (CompiledRule.val true)) (rx.id ++ "_b") (CompiledRule.val true) }

/-- State reached by one reversible GPR split step after the two
`set_flux_bounds` calls, still before the fatal `model.add_rule` call. -/
def splitStepG6 (table : List (String × List (String × Rat)))
    (m : GPRConstrainedModel) (r_id : String) (rx : Reaction)
    (lb ub : Option Rat) : GPRConstrainedModel :=
  { splitStepG table m r_id rx with
    toConstraintBasedModel := { (splitStepG table m r_id rx).toConstraintBasedModel with
      bounds := odInsert (odInsert (splitStepG table m r_id rx).bounds
        (rx.id ++ "_f") (some 0, ub)) (rx.id ++ "_b") (some 0, negBound lb) } }

/-- Every reversible item makes the GPR loop raise the `AttributeError` of
the missing `add_rule` method, carrying one of the two partial states. -/
theorem irrevGoG_cons_rev (table : List (String × List (String × Rat)))
    (r_id : String) (rx : Reaction) (rest : List (String × Reaction))
    (m : GPRConstrainedModel) (mp : List (String × (String × String)))
    (hrev : rx.reversible = true) :
    irrevGoG table ((r_id, rx) :: rest) m mp
      = match odFind (splitStepG table m r_id rx).bounds r_id with
        | none => .err (splitStepG table m r_id rx)
        | some (lb, ub) => .err (splitStepG6 table m r_id rx lb ub) := by
  have hg1 : odContains (odInsert m.reactions (rx.id ++ "_f")
      (Reaction.mk (rx.id ++ "_f") rx.name false)) (rx.id ++ "_f") = true := by
    unfold odContains
    rw [odFind_insert, if_pos rfl]
    rfl
  have hg2 : odContains (odInsert (odInsert m.reactions (rx.id ++ "_f")
      (Reaction.mk (rx.id ++ "_f") rx.name false)) (rx.id ++ "_b")
      (Reaction.mk (rx.id ++ "_b") rx.name false)) (rx.id ++ "_b") = true := by
    unfold odContains
    rw [odFind_insert, if_pos rfl]
    rfl
  have hg3 : odContains (odInsert (odInsert m.reactions (rx.id ++ "_f")
      (Reaction.mk (rx.id ++ "_f") rx.name false)) (rx.id ++ "_b")
      (Reaction.mk (rx.id ++ "_b") rx.name false)) (rx.id ++ "_f") = true := by
    unfold odContains
    rw [odFind_insert]
    by_cases hh : (rx.id ++ "_f") = (rx.id ++ "_b")
    · rw [if_pos hh]; rfl
    · rw [if_neg hh, odFind_insert, if_pos rfl]; rfl
  simp only [irrevGoG, hrev, if_true, GPRConstrainedModel.add_reaction,
    GPRConstrainedModel.set_rule, GPRConstrainedModel.rule_to_function,
    ConstraintBasedModel.add_reaction, StoichiometricModel.add_reaction,
    ConstraintBasedModel.set_flux_bounds, hg1, hg2, hg3,
    splitStepG, splitStepG6]

/-- A non-reversible item is skipped by the GPR loop. -/
theorem irrevGoG_cons_nonrev (table : List (String × List (String × Rat)))
    (r_id : String) (rx : Reaction) (rest : List (String × Reaction))
    (m : GPRConstrainedModel) (mp : List (String × (String × String)))
    (hrev : rx.reversible = false) :
    irrevGoG table ((r_id, rx) :: rest) m mp = irrevGoG table rest m mp := by
  simp [irrevGoG, hrev]

/-- The GPR loop only returns when the snapshot has no reversible reaction,
and then it returns the model and mapping unchanged. -/
theorem irrevGoG_ok (table : List (String × List (String × Rat)))
    (rest : List (String × Reaction)) (m : GPRConstrainedModel)
    (mp : List (String × (String × String)))
    (m2 : GPRConstrainedModel) (mp2 : List (String × (String × String)))
    (h : irrevGoG table rest m mp = .ok m2 mp2) :
    m2 = m ∧ mp2 = mp ∧ ∀ e ∈ rest, e.2.reversible = false := by
  induction rest generalizing m mp with
  | nil =>
    simp only [irrevGoG] at h
    injection h with h1 h2
    exact ⟨h1.symm, h2.symm, by intro e he; simp at he⟩
  | cons e0 rest' ih =>
    obtain ⟨r_id, rx⟩ := e0
    rcases hrev : rx.reversible with _ | _
    · rw [irrevGoG_cons_nonrev _ _ _ _ _ _ hrev] at h
      obtain ⟨h1, h2, h3⟩ := ih _ _ h
      refine ⟨h1, h2, ?_⟩
      intro e he
      rcases List.mem_cons.mp he with h4 | h4
      · rw [h4]; exact hrev
      · exact h3 e h4
    · rw [irrevGoG_cons_rev _ _ _ _ _ _ hrev] at h
      rcases hfind : odFind (splitStepG table m r_id rx).bounds r_id with _ | p
      · rw [hfind] at h; cases h
      · obtain ⟨lb, ub⟩ := p
        rw [hfind] at h; cases h

/-- Lookups of every layer component at untouched keys are unchanged by the
GPR loop, whether it returns or raises. -/
theorem irrevGoG_frame (table : List (String × List (String × Rat)))
    (rest : List (String × Reaction)) (m : GPRConstrainedModel)
    (mp : List (String × (String × String))) (k : String)
    (hk : untouchedRxn k rest) :
    odFind (irrevGoG table rest m mp).state.reactions k = odFind m.reactions k ∧
    (∀ mi, odFind (irrevGoG table rest m mp).state.stoichiometry (mi, k)
      = odFind m.stoichiometry (mi, k)) ∧
    odFind (irrevGoG table rest m mp).state.bounds k = odFind m.bounds k ∧
    odFind (irrevGoG table rest m mp).state.rules k = odFind m.rules k ∧
    odFind (irrevGoG table rest m mp).state.rule_functions k
      = odFind m.rule_functions k := by
  induction rest generalizing m mp with
  | nil =>
    exact ⟨rfl, fun mi => rfl, rfl, rfl, rfl⟩
  | cons e0 rest' ih =>
    obtain ⟨r_id, rx⟩ := e0
    have hk' : untouchedRxn k rest' :=
      fun e he => hk e (List.mem_cons_of_mem _ he)
    rcases hrev : rx.reversible with _ | _
    · rw [irrevGoG_cons_nonrev _ _ _ _ _ _ hrev]
      exact ih _ _ hk'
    · obtain ⟨hne1, hne2, hne3⟩ := hk (r_id, rx) (List.mem_cons_self _ _) hrev
      rw [irrevGoG_cons_rev _ _ _ _ _ _ hrev]
      have hreact : odFind (splitStepG table m r_id rx).reactions k
          = odFind m.reactions k := by
        show odFind (odInsert (odInsert m.reactions (rx.id ++ "_f")
          (Reaction.mk (rx.id ++ "_f") rx.name false)) (rx.id ++ "_b")
          (Reaction.mk (rx.id ++ "_b") rx.name false)) k = odFind m.reactions k
        rw [odFind_insert, if_neg hne3, odFind_insert, if_neg hne2]
      have hstoich : ∀ mi, odFind (splitStepG table m r_id rx).stoichiometry (mi, k)
          = odFind m.stoichiometry (mi, k) := by
        intro mi
        show odFind (edgeFold (rx.id ++ "_f") (rx.id ++ "_b")
          ((odFind table r_id).getD []) m.stoichiometry) (mi, k)
          = odFind m.stoichiometry (mi, k)
        exact edgeFold_preserve _ _ _ _ _ hne2 hne3
      have hbounds4 : odFind (splitStepG table m r_id rx).bounds k
          = odFind m.bounds k := by
        show odFind (odInsert (odInsert m.bounds (rx.id ++ "_f") (none, none))
          (rx.id ++ "_b") (none, none)) k = odFind m.bounds k
        rw [odFind_insert, if_neg hne3, odFind_insert, if_neg hne2]
      have hrules : odFind (splitStepG table m r_id rx).rules k
          = odFind m.rules k := by
        show odFind (odInsert (odInsert m.rules (rx.id ++ "_f") none)
          (rx.id ++ "_b") none) k = odFind m.rules k
        rw [odFind_insert, if_neg hne3, odFind_insert, if_neg hne2]
      have hrfs : odFind (splitStepG table m r_id rx).rule_functions k
          = odFind m.rule_functions k := by
        show odFind (odInsert (odInsert m.rule_functions (rx.id ++ "_f")
          (CompiledRule.val true)) (rx.id ++ "_b") (CompiledRule.val true)) k
          = odFind m.rule_functions k
        rw [odFind_insert, if_neg hne3, odFind_insert, if_neg hne2]
      rcases hfind : odFind (splitStepG table m r_id rx).bounds r_id with _ | p
      · exact ⟨hreact, hstoich, hbounds4, hrules, hrfs⟩
      · obtain ⟨lb, ub⟩ := p
        have hbounds6 : odFind (splitStepG6 table m r_id rx lb ub).bounds k
            = odFind m.bounds k := by
          show odFind (odInsert (odInsert (splitStepG table m r_id rx).bounds
            (rx.id ++ "_f") (some 0, ub)) (rx.id ++ "_b") (some 0, negBound lb)) k
            = odFind m.bounds k
          rw [odFind_insert, if_neg hne3, odFind_insert, if_neg hne2, hbounds4]
        exact ⟨hreact, hstoich, hbounds6, hrules, hrfs⟩

/-- With well-formed inputs the constraint-based loop returns, its mapping
is that of the stoichiometric loop, and its graph layer agrees with the
stoichiometric loop. -/
theorem irrevGoC_agree (table : List (String × List (String × Rat)))
    (K : List String) :
    ∀ (rest : List (String × Reaction)) (m : ConstraintBasedModel)
      (mp : List (String × (String × String))),
    (∀ e ∈ rest, e.1 ∈ K) → (∀ e ∈ rest, e.2.id = e.1) →
    (odKeys rest).Nodup →
    (∀ e ∈ rest, e.2.reversible = true →
      (e.1 ++ "_f") ∉ K ∧ (e.1 ++ "_b") ∉ K) →
    (∀ e ∈ rest, odContains m.bounds e.1 = true) →
    ∃ mC, irrevGoC table rest m mp
        = .ok mC ((irrevGoS table rest m.toStoichiometricModel mp).2) ∧
      mC.toStoichiometricModel = (irrevGoS table rest m.toStoichiometricModel mp).1 := by
  intro rest
  induction rest with
  | nil =>
    intro m mp _ _ _ _ _
    exact ⟨m, rfl, rfl⟩
  | cons e0 rest' ih =>
    obtain ⟨r_id, rx⟩ := e0
    intro m mp hsub hid hnd hfresh hbnd
    have hnd2 := keys_cons_nodup hnd
    have hidh : rx.id = r_id := hid (r_id, rx) (List.mem_cons_self _ _)
    have hKr : r_id ∈ K := hsub (r_id, rx) (List.mem_cons_self _ _)
    have hsub' : ∀ e ∈ rest', e.1 ∈ K := fun e he => hsub e (List.mem_cons_of_mem _ he)
    have hid' : ∀ e ∈ rest', e.2.id = e.1 := fun e he => hid e (List.mem_cons_of_mem _ he)
    have hfresh' : ∀ e ∈ rest', e.2.reversible = true →
        (e.1 ++ "_f") ∉ K ∧ (e.1 ++ "_b") ∉ K :=
      fun e he => hfresh e (List.mem_cons_of_mem _ he)
    rcases hrev : rx.reversible with _ | _
    · have hS : irrevGoS table ((r_id, rx) :: rest') m.toStoichiometricModel mp
          = irrevGoS table rest' m.toStoichiometricModel mp := by
        simp [irrevGoS, hrev]
      rw [irrevGoC_cons_nonrev _ _ _ _ _ _ hrev, hS]
      exact ih _ _ hsub' hid' hnd2.2 hfresh'
        (fun e he => hbnd e (List.mem_cons_of_mem _ he))
    · have hfr : (r_id ++ "_f") ∉ K ∧ (r_id ++ "_b") ∉ K :=
        hfresh (r_id, rx) (List.mem_cons_self _ _) hrev
      have hfw : (rx.id ++ "_f") ≠ r_id := by
        rw [hidh]
        exact fun hh => hfr.1 (by rw [hh]; exact hKr)
      have hbw : (rx.id ++ "_b") ≠ r_id := by
        rw [hidh]
        exact fun hh => hfr.2 (by rw [hh]; exact hKr)
      have hcont : odContains m.bounds r_id = true :=
        hbnd (r_id, rx) (List.mem_cons_self _ _)
      rcases hbfind : odFind m.bounds r_id with _ | p
      · rw [odContains, hbfind] at hcont
        simp at hcont
      obtain ⟨lb, ub⟩ := p
      have hS : irrevGoS table ((r_id, rx) :: rest') m.toStoichiometricModel mp
          = irrevGoS table rest' (splitStepS table m.toStoichiometricModel r_id rx)
            (odInsert mp r_id (rx.id ++ "_f", rx.id ++ "_b")) := by
        simp only [irrevGoS, hrev, if_true]
      rw [irrevGoC_cons_rev _ _ _ _ _ _ hrev hfw hbw lb ub hbfind, hS]
      have hbnd' : ∀ e ∈ rest',
          odContains (stepCBounds m r_id rx lb ub) e.1 = true := by
        intro e he
        have hk1 : e.1 ≠ r_id := by
          intro hh
          apply hnd2.1
          have hmem : e.1 ∈ odKeys rest' := List.mem_map_of_mem Prod.fst he
          rw [hh] at hmem
          exact hmem
        have hk2 : e.1 ≠ rx.id ++ "_f" := by
          rw [hidh]
          intro hh
          exact hfr.1 (hh ▸ hsub' e he)
        have hk3 : e.1 ≠ rx.id ++ "_b" := by
          rw [hidh]
          intro hh
          exact hfr.2 (hh ▸ hsub' e he)
        unfold odContains
        rw [stepCBounds_find _ _ _ _ _ _ hk1 hk2 hk3]
        exact hbnd e (List.mem_cons_of_mem _ he)
      exact ih _ _ hsub' hid' hnd2.2 hfresh' hbnd'

/-- With well-formed inputs, bounds lookups at untouched keys are unchanged
by the constraint-based loop. -/
theorem irrevGoC_bounds_frame (table : List (String × List (String × Rat)))
    (K : List String) :
    ∀ (rest : List (String × Reaction)) (m : ConstraintBasedModel)
      (mp : List (String × (String × String))),
    (∀ e ∈ rest, e.1 ∈ K) → (∀ e ∈ rest, e.2.id = e.1) →
    (odKeys rest).Nodup →
    (∀ e ∈ rest, e.2.reversible = true →
      (e.1 ++ "_f") ∉ K ∧ (e.1 ++ "_b") ∉ K) →
    (∀ e ∈ rest, odContains m.bounds e.1 = true) →
    ∀ k, untouchedRxn k rest →
      odFind (irrevGoC table rest m mp).state.bounds k = odFind m.bounds k := by
  intro rest
  induction rest with
  | nil =>
    intro m mp _ _ _ _ _ k _
    rfl
  | cons e0 rest' ih =>
    obtain ⟨r_id, rx⟩ := e0
    intro m mp hsub hid hnd hfresh hbnd k hk
    have hnd2 := keys_cons_nodup hnd
    have hidh : rx.id = r_id := hid (r_id, rx) (List.mem_cons_self _ _)
    have hKr : r_id ∈ K := hsub (r_id, rx) (List.mem_cons_self _ _)
    have hsub' : ∀ e ∈ rest', e.1 ∈ K := fun e he => hsub e (List.mem_cons_of_mem _ he)
    have hid' : ∀ e ∈ rest', e.2.id = e.1 := fun e he => hid e (List.mem_cons_of_mem _ he)
    have hfresh' : ∀ e ∈ rest', e.2.reversible = true →
        (e.1 ++ "_f") ∉ K ∧ (e.1 ++ "_b") ∉ K :=
      fun e he => hfresh e (List.mem_cons_of_mem _ he)
    have hk' : untouchedRxn k rest' :=
      fun e he => hk e (List.mem_cons_of_mem _ he)
    rcases hrev : rx.reversible with _ | _
    · rw [irrevGoC_cons_nonrev _ _ _ _ _ _ hrev]
      exact ih _ _ hsub' hid' hnd2.2 hfresh'
        (fun e he => hbnd e (List.mem_cons_of_mem _ he)) k hk'
    · obtain ⟨hne1, hne2, hne3⟩ := hk (r_id, rx) (List.mem_cons_self _ _) hrev
      have hfr : (r_id ++ "_f") ∉ K ∧ (r_id ++ "_b") ∉ K :=
        hfresh (r_id, rx) (List.mem_cons_self _ _) hrev
      have hfw : (rx.id ++ "_f") ≠ r_id := by
        rw [hidh]
        exact fun hh => hfr.1 (by rw [hh]; exact hKr)
      have hbw : (rx.id ++ "_b") ≠ r_id := by
        rw [hidh]
        exact fun hh => hfr.2 (by rw [hh]; exact hKr)
      have hcont : odContains m.bounds r_id = true :=
        hbnd (r_id, rx) (List.mem_cons_self _ _)
      rcases hbfind : odFind m.bounds r_id with _ | p
      · rw [odContains, hbfind] at hcont
        simp at hcont
      obtain ⟨lb, ub⟩ := p
      rw [irrevGoC_cons_rev _ _ _ _ _ _ hrev hfw hbw lb ub hbfind]
      have hbnd' : ∀ e ∈ rest',
          odContains (stepCBounds m r_id rx lb ub) e.1 = true := by
        intro e he
        have hk1 : e.1 ≠ r_id := by
          intro hh
          apply hnd2.1
          have hmem : e.1 ∈ odKeys rest' := List.mem_map_of_mem Prod.fst he
          rw [hh] at hmem
          exact hmem
        have hk2 : e.1 ≠ rx.id ++ "_f" := by
          rw [hidh]
          intro hh
          exact hfr.1 (hh ▸ hsub' e he)
        have hk3 : e.1 ≠ rx.id ++ "_b" := by
          rw [hidh]
          intro hh
          exact hfr.2 (hh ▸ hsub' e he)
        unfold odContains
        rw [stepCBounds_find _ _ _ _ _ _ hk1 hk2 hk3]
        exact hbnd e (List.mem_cons_of_mem _ he)
      rw [ih _ _ hsub' hid' hnd2.2 hfresh' hbnd' k hk',
        stepCBounds_find _ _ _ _ _ _ hne1 hne2 hne3]

/-- With well-formed inputs, the constraint-based loop installs forward
bounds `(0, ub)`, backward bounds `(0, -lb)` (unbounded when `lb` was) and
deletes the original entry, for every reversible snapshot reaction. -/
theorem irrevGoC_bounds_est (table : List (String × List (String × Rat)))
    (K : List String) :
    ∀ (rest : List (String × Reaction)) (m : ConstraintBasedModel)
      (mp : List (String × (String × String))),
    (∀ e ∈ rest, e.1 ∈ K) → (∀ e ∈ rest, e.2.id = e.1) →
    (odKeys rest).Nodup →
    (∀ e ∈ rest, e.2.reversible = true →
      (e.1 ++ "_f") ∉ K ∧ (e.1 ++ "_b") ∉ K) →
    (∀ e ∈ rest, odContains m.bounds e.1 = true) →
    ∀ e ∈ rest, e.2.reversible = true →
      ∀ lb ub, odFind m.bounds e.1 = some (lb, ub) →
        odFind (irrevGoC table rest m mp).state.bounds (e.1 ++ "_f")
          = some (some 0, ub) ∧
        odFind (irrevGoC table rest m mp).state.bounds (e.1 ++ "_b")
          = some (some 0, negBound lb) ∧
        odFind (irrevGoC table rest m mp).state.bounds e.1 = none := by
  intro rest
  induction rest with
  | nil =>
    intro m mp _ _ _ _ _ e he
    simp at he
  | cons e0 rest' ih =>
    obtain ⟨r_id, rx⟩ := e0
    intro m mp hsub hid hnd hfresh hbnd e he hrev lb ub hbfind
    have hnd2 := keys_cons_nodup hnd
    have hidh : rx.id = r_id := hid (r_id, rx) (List.mem_cons_self _ _)
    have hKr : r_id ∈ K := hsub (r_id, rx) (List.mem_cons_self _ _)
    have hsub' : ∀ e2 ∈ rest', e2.1 ∈ K :=
      fun e2 he2 => hsub e2 (List.mem_cons_of_mem _ he2)
    have hid' : ∀ e2 ∈ rest', e2.2.id = e2.1 :=
      fun e2 he2 => hid e2 (List.mem_cons_of_mem _ he2)
    have hfresh' : ∀ e2 ∈ rest', e2.2.reversible = true →
        (e2.1 ++ "_f") ∉ K ∧ (e2.1 ++ "_b") ∉ K :=
      fun e2 he2 => hfresh e2 (List.mem_cons_of_mem _ he2)
    rcases List.mem_cons.mp he with h1 | h1
    · subst h1
      dsimp only at hrev hbfind ⊢
      have hfr : (r_id ++ "_f") ∉ K ∧ (r_id ++ "_b") ∉ K :=
        hfresh (r_id, rx) (List.mem_cons_self _ _) hrev
      have hfw : (rx.id ++ "_f") ≠ r_id := by
        rw [hidh]
        exact fun hh => hfr.1 (by rw [hh]; exact hKr)
      have hbw : (rx.id ++ "_b") ≠ r_id := by
        rw [hidh]
        exact fun hh => hfr.2 (by rw [hh]; exact hKr)
      rw [irrevGoC_cons_rev _ _ _ _ _ _ hrev hfw hbw lb ub hbfind]
      have hbnd' : ∀ e2 ∈ rest',
          odContains (stepCBounds m r_id rx lb ub) e2.1 = true := by
        intro e2 he2
        have hk1 : e2.1 ≠ r_id := by
          intro hh
          apply hnd2.1
          have hmem : e2.1 ∈ odKeys rest' := List.mem_map_of_mem Prod.fst he2
          rw [hh] at hmem
          exact hmem
        have hk2 : e2.1 ≠ rx.id ++ "_f" := by
          rw [hidh]
          intro hh
          exact hfr.1 (hh ▸ hsub' e2 he2)
        have hk3 : e2.1 ≠ rx.id ++ "_b" := by
          rw [hidh]
          intro hh
          exact hfr.2 (hh ▸ hsub' e2 he2)
        unfold odContains
        rw [stepCBounds_find _ _ _ _ _ _ hk1 hk2 hk3]
        exact hbnd e2 (List.mem_cons_of_mem _ he2)
    
      refine ⟨?_, ?_, ?_⟩
      · rw [irrevGoC_bounds_frame table K rest' _ _ hsub' hid' hnd2.2 hfresh' hbnd'
          (r_id ++ "_f") (untouchedRxn_fwd K rest' hsub' hid' r_id hnd2.1 hfr.1)]
        have hx := stepCBounds_fwd m r_id rx lb ub hfw
        rw [hidh] at hx
        exact hx
      · rw [irrevGoC_bounds_frame table K rest' _ _ hsub' hid' hnd2.2 hfresh' hbnd'
          (r_id ++ "_b") (untouchedRxn_bwd K rest' hsub' hid' r_id hnd2.1 hfr.2)]
        have hx := stepCBounds_bwd m r_id rx lb ub hbw
        rw [hidh] at hx
        exact hx
      · rw [irrevGoC_bounds_frame table K rest' _ _ hsub' hid' hnd2.2 hfresh' hbnd'
          r_id (untouchedRxn_orig K rest' hsub' hid' hfresh' r_id hKr hnd2.1)]
        exact stepCBounds_orig m r_id rx lb ub
    · rcases hrev0 : rx.reversible with _ | _
      · rw [irrevGoC_cons_nonrev _ _ _ _ _ _ hrev0]
        exact ih _ _ hsub' hid' hnd2.2 hfresh'
          (fun e2 he2 => hbnd e2 (List.mem_cons_of_mem _ he2)) e h1 hrev lb ub hbfind
      · have hfr : (r_id ++ "_f") ∉ K ∧ (r_id ++ "_b") ∉ K :=
          hfresh (r_id, rx) (List.mem_cons_self _ _) hrev0
        have hfw : (rx.id ++ "_f") ≠ r_id := by
          rw [hidh]
          exact fun hh => hfr.1 (by rw [hh]; exact hKr)
        have hbw : (rx.id ++ "_b") ≠ r_id := by
          rw [hidh]
          exact fun hh => hfr.2 (by rw [hh]; exact hKr)
        have hcont : odContains m.bounds r_id = true :=
          hbnd (r_id, rx) (List.mem_cons_self _ _)
        rcases hbfind0 : odFind m.bounds r_id with _ | p
        · rw [odContains, hbfind0] at hcont
          simp at hcont
        obtain ⟨lb0, ub0⟩ := p
        rw [irrevGoC_cons_rev _ _ _ _ _ _ hrev0 hfw hbw lb0 ub0 hbfind0]
        have hk1 : e.1 ≠ r_id := by
          intro hh
          apply hnd2.1
          have hmem : e.1 ∈ odKeys rest' := List.mem_map_of_mem Prod.fst h1
          rw [hh] at hmem
          exact hmem
        have hk2 : e.1 ≠ rx.id ++ "_f" := by
          rw [hidh]
          intro hh
          exact hfr.1 (hh ▸ hsub' e h1)
        have hk3 : e.1 ≠ rx.id ++ "_b" := by
          rw [hidh]
          intro hh
          exact hfr.2 (hh ▸ hsub' e h1)
        have hbnd' : ∀ e2 ∈ rest',
            odContains (stepCBounds m r_id rx lb0 ub0) e2.1 = true := by
          intro e2 he2
          have hj1 : e2.1 ≠ r_id := by
            intro hh
            apply hnd2.1
            have hmem : e2.1 ∈ odKeys rest' := List.mem_map_of_mem Prod.fst he2
            rw [hh] at hmem
            exact hmem
          have hj2 : e2.1 ≠ rx.id ++ "_f" := by
            rw [hidh]
            intro hh
            exact hfr.1 (hh ▸ hsub' e2 he2)
          have hj3 : e2.1 ≠ rx.id ++ "_b" := by
            rw [hidh]
            intro hh
            exact hfr.2 (hh ▸ hsub' e2 he2)
          unfold odContains
          rw [stepCBounds_find _ _ _ _ _ _ hj1 hj2 hj3]
          exact hbnd e2 (List.mem_cons_of_mem _ he2)
        refine ih _ _ hsub' hid' hnd2.2 hfresh' hbnd' e h1 hrev lb ub ?_
        rw [stepCBounds_find _ _ _ _ _ _ hk1 hk2 hk3]
        exact hbfind

/-- The key of a non-reversible snapshot item is untouched by the loop. -/
theorem untouchedRxn_of_nonrev (K : List String) (rest : List (String × Reaction))
    (hsub : ∀ e ∈ rest, e.1 ∈ K)
    (hid : ∀ e ∈ rest, e.2.id = e.1)
    (hnd : (odKeys rest).Nodup)
    (hfresh : ∀ e ∈ rest, e.2.reversible = true →
      (e.1 ++ "_f") ∉ K ∧ (e.1 ++ "_b") ∉ K)
    (e : String × Reaction) (he : e ∈ rest) (hrev : e.2.reversible = false) :
    untouchedRxn e.1 rest := by
  intro e2 he2 hrev2
  refine ⟨?_, ?_, ?_⟩
  · intro hh
    have hee : e = e2 := eq_of_key_eq hnd he he2 hh
    rw [hee, hrev2] at hrev
    cases hrev
  · intro hh
    rw [hid e2 he2] at hh
    exact (hfresh e2 he2 hrev2).1 (by rw [← hh]; exact hsub e he)
  · intro hh
    rw [hid e2 he2] at hh
    exact (hfresh e2 he2 hrev2).2 (by rw [← hh]; exact hsub e he)

/-- Unguarded bulk deletion succeeds exactly like the guarded one when the
ids are distinct and all present. -/
theorem odDelAll_ok {K V : Type} [DecidableEq K] (d : List (K × V))
    (ids : List K) (hnd : ids.Nodup)
    (h : ∀ i ∈ ids, odContains d i = true) :
    odDelAll d ids = .ok (odEraseList d ids) () := by
  induction ids generalizing d with
  | nil => rfl
  | cons i rest ih =>
    have hnd2 := List.nodup_cons.mp hnd
    have hc : odContains d i = true := h i (List.mem_cons_self _ _)
    simp only [odDelAll, odDelStrict, hc, if_true]
    have h2 : ∀ j ∈ rest, odContains (odErase d i) j = true := by
      intro j hj
      have hji : ¬ j = i := fun hh => hnd2.1 (hh ▸ hj)
      unfold odContains
      rw [odFind_erase, if_neg hji]
      exact h j (List.mem_cons_of_mem _ hj)
    rw [ih _ hnd2.2 h2]
    rfl

/-- The per-id rule deletion loop succeeds like a guarded bulk deletion of
both maps when the ids are distinct and present in both. -/
theorem rulesDel_ok (ru : List (String × Option GPRExpr))
    (rf : List (String × CompiledRule)) (ids : List String)
    (hnd : ids.Nodup)
    (hru : ∀ i ∈ ids, odContains ru i = true)
    (hrf : ∀ i ∈ ids, odContains rf i = true) :
    GPRConstrainedModel.rulesDel ru rf ids
      = .ok (odEraseList ru ids, odEraseList rf ids) () := by
  induction ids generalizing ru rf with
  | nil => rfl
  | cons i rest ih =>
    have hnd2 := List.nodup_cons.mp hnd
    have hc1 : odContains ru i = true := hru i (List.mem_cons_self _ _)
    have hc2 : odContains rf i = true := hrf i (List.mem_cons_self _ _)
    simp only [GPRConstrainedModel.rulesDel, odDelStrict, hc1, hc2, if_true]
    have h2 : ∀ j ∈ rest, odContains (odErase ru i) j = true := by
      intro j hj
      have hji : ¬ j = i := fun hh => hnd2.1 (hh ▸ hj)
      unfold odContains
      rw [odFind_erase, if_neg hji]
      exact hru j (List.mem_cons_of_mem _ hj)
    have h3 : ∀ j ∈ rest, odContains (odErase rf i) j = true := by
      intro j hj
      have hji : ¬ j = i := fun hh => hnd2.1 (hh ▸ hj)
      unfold odContains
      rw [odFind_erase, if_neg hji]
      exact hrf j (List.mem_cons_of_mem _ hj)
    rw [ih _ _ hnd2.2 h2 h3]
    rfl

/-- A compiled predicate is closed for a gene list when every identifier
was substituted and refers to one of those genes. -/
def closedRule (genes : List String) : CompiledRule → Bool
  | .val _ => true
  | .lookupGene g => decide (g ∈ genes)
  | .freeName _ => false
  | .cand a b => closedRule genes a && closedRule genes b
  | .cor a b => closedRule genes a && closedRule genes b
  | .cnot a => closedRule genes a && true

/-- A compiled predicate mentions no NOT. -/
def noNotRule : CompiledRule → Bool
  | .val _ => true
  | .lookupGene _ => true
  | .freeName _ => true
  | .cand a b => noNotRule a && noNotRule b
  | .cor a b => noNotRule a && noNotRule b
  | .cnot _ => false

/-- Reactions reported by an `eval_GPR` call: the returned list when the
call returns, no reactions when it raises. -/
def gprResult : Except Unit (List String) → List String
  | .ok l => l
  | .error _ => []

/-- True exactly when an evaluation returned the boolean true. -/
def isOkTrue : Except Unit Bool → Bool
  | .ok true => true
  | _ => false

/-- Characterisation of `isOkTrue`. -/
theorem isOkTrue_iff (x : Except Unit Bool) : isOkTrue x = true ↔ x = .ok true := by
  rcases x with _ | b
  · simp [isOkTrue]
  · rcases b with _ | _ <;> simp [isOkTrue]

/-- Bind on a successful evaluation reduces. -/
theorem except_bind_ok {A B : Type} (a : A) (f : A → Except Unit B) :
    (Except.ok a >>= f) = f a := rfl

/-- Specification-side active-reaction list: the reaction ids, in
insertion order, whose compiled predicate evaluates true. -/
def activeList (m : GPRConstrainedModel) (act : List String) : List String :=
  (m.rule_functions.filter
    (fun e => isOkTrue (evalCompiled (m.genes_state act) e.2))).map Prod.fst

/-- Keys of the gene-state map are exactly the known gene ids. -/
theorem genes_state_keys (m : GPRConstrainedModel) (act : List String) :
    odKeys (m.genes_state act) = odKeys m.genes := by
  unfold GPRConstrainedModel.genes_state odKeys
  rw [List.map_map]
  rfl

/-- Lookup in the gene-state map. -/
theorem genes_state_find (m : GPRConstrainedModel) (act : List String)
    (g : String) :
    odFind (m.genes_state act) g
      = (odFind m.genes g).map (fun _ => decide (g ∈ act)) := by
  unfold GPRConstrainedModel.genes_state
  induction m.genes with
  | nil => simp [odFind]
  | cons e rest ih =>
    by_cases h1 : e.1 = g
    · simp [odFind, h1]
    · simp only [List.map_cons, odFind, if_neg h1, ih]

/-- A closed predicate always evaluates, whatever the state values. -/
theorem evalCompiled_total (state : List (String × Bool)) (f : CompiledRule)
    (h : closedRule (odKeys state) f = true) :
    ∃ b, evalCompiled state f = .ok b := by
  induction f with
  | val b => exact ⟨b, rfl⟩
  | lookupGene g =>
    simp only [closedRule, decide_eq_true_eq] at h
    rcases hf : odFind state g with _ | b
    · exact absurd ((odFind_eq_none_iff state g).mp hf) (by simpa using h)
    · exact ⟨b, by simp [evalCompiled, hf]⟩
  | freeName g => simp [closedRule] at h
  | cand a b iha ihb =>
    simp only [closedRule, Bool.and_eq_true] at h
    obtain ⟨ba, hba⟩ := iha h.1
    obtain ⟨bb, hbb⟩ := ihb h.2
    rcases hcase : ba with _ | _
    · rw [hcase] at hba
      exact ⟨false, by simp [evalCompiled, hba, except_bind_ok]⟩
    · rw [hcase] at hba
      exact ⟨bb, by simp [evalCompiled, hba, hbb, except_bind_ok]⟩
  | cor a b iha ihb =>
    simp only [closedRule, Bool.and_eq_true] at h
    obtain ⟨ba, hba⟩ := iha h.1
    obtain ⟨bb, hbb⟩ := ihb h.2
    rcases hcase : ba with _ | _
    · rw [hcase] at hba
      exact ⟨bb, by simp [evalCompiled, hba, hbb, except_bind_ok]⟩
    · rw [hcase] at hba
      exact ⟨true, by simp [evalCompiled, hba, except_bind_ok]⟩
  | cnot a iha =>
    simp only [closedRule, Bool.and_eq_true] at h
    obtain ⟨ba, hba⟩ := iha h.1
    exact ⟨!ba, by simp [evalCompiled, hba, except_bind_ok]⟩

/-- When every predicate is closed, the comprehension loop returns exactly
the filter of the rule-function list by a true evaluation. -/
theorem evalGPRGo_spec (state : List (String × Bool)) :
    ∀ (rfs : List (String × CompiledRule)),
    (∀ e ∈ rfs, closedRule (odKeys state) e.2 = true) →
    evalGPRGo state rfs
      = .ok ((rfs.filter (fun e => isOkTrue (evalCompiled state e.2))).map Prod.fst) := by
  intro rfs
  induction rfs with
  | nil => intro _; rfl
  | cons e0 rest ih =>
    obtain ⟨r0, f0⟩ := e0
    intro hclosed
    obtain ⟨b0, hb0⟩ := evalCompiled_total state f0
      (hclosed (r0, f0) (List.mem_cons_self _ _))
    have hrest := ih (fun e he => hclosed e (List.mem_cons_of_mem _ he))
    simp only [evalGPRGo, hb0, hrest, except_bind_ok]
    rcases hcase : b0 with _ | _
    · rw [hcase] at hb0
      have hfilter : isOkTrue (evalCompiled state f0) = false := by
        rw [hb0]; rfl
      simp [List.filter_cons, hfilter]
    · rw [hcase] at hb0
      have hfilter : isOkTrue (evalCompiled state f0) = true := by
        rw [hb0]; rfl
      simp [List.filter_cons, hfilter]

/-- Bind on a failed evaluation reduces. -/
theorem except_bind_error {A : Type} (f : Bool → Except Unit A) :
    ((Except.error () : Except Unit Bool) >>= f) = Except.error () := rfl

/-- NOT-free closed predicates evaluate monotonically in the gene state. -/
theorem evalCompiled_mono (sA sB : List (String × Bool))
    (hmono : ∀ g bA, odFind sA g = some bA →
      ∃ bB, odFind sB g = some bB ∧ (bA = true → bB = true))
    (f : CompiledRule) (hnn : noNotRule f = true)
    (hclB : closedRule (odKeys sB) f = true) :
    ∀ bA, evalCompiled sA f = .ok bA →
      ∃ bB, evalCompiled sB f = .ok bB ∧ (bA = true → bB = true) := by
  induction f with
  | val b =>
    intro bA h
    simp only [evalCompiled] at h
    injection h with h2
    exact ⟨b, rfl, by rw [← h2]; exact id⟩
  | lookupGene g =>
    intro bA h
    rcases hf : odFind sA g with _ | ba
    · simp [evalCompiled, hf] at h
    · simp only [evalCompiled, hf] at h
      injection h with h2
      obtain ⟨bB, hfB, himp⟩ := hmono g ba hf
      exact ⟨bB, by simp [evalCompiled, hfB], by rw [← h2]; exact himp⟩
  | freeName g => simp [closedRule] at hclB
  | cand a b iha ihb =>
    simp only [noNotRule, Bool.and_eq_true] at hnn
    simp only [closedRule, Bool.and_eq_true] at hclB
    intro bA h
    simp only [evalCompiled] at h
    rcases ha : evalCompiled sA a with u | ba
    · obtain ⟨⟩ := u
      rw [ha, except_bind_error] at h
      cases h
    · rw [ha, except_bind_ok] at h
      obtain ⟨ba', hba', himpa⟩ := iha hnn.1 hclB.1 ba ha
      rcases hcase : ba with _ | _
      · rw [hcase] at h
        simp only [Bool.false_eq_true, if_false] at h
        injection h with h2
        rcases hcase' : ba' with _ | _
        · refine ⟨false, ?_, by rw [← h2]; simp⟩
          rw [hcase'] at hba'
          simp [evalCompiled, hba', except_bind_ok]
        · rw [hcase'] at hba'
          obtain ⟨bb', hbb'⟩ := evalCompiled_total sB b hclB.2
          refine ⟨bb', ?_, by rw [← h2]; simp⟩
          simp [evalCompiled, hba', hbb', except_bind_ok]
      · rw [hcase] at h
        simp only [if_true] at h
        have hba'true : ba' = true := himpa (by rw [hcase])
        rw [hba'true] at hba'
        obtain ⟨bB, hbB, himpb⟩ := ihb hnn.2 hclB.2 bA h
        exact ⟨bB, by simp [evalCompiled, hba', hbB, except_bind_ok], himpb⟩
  | cor a b iha ihb =>
    simp only [noNotRule, Bool.and_eq_true] at hnn
    simp only [closedRule, Bool.and_eq_true] at hclB
    intro bA h
    simp only [evalCompiled] at h
    rcases ha : evalCompiled sA a with u | ba
    · obtain ⟨⟩ := u
      rw [ha, except_bind_error] at h
      cases h
    · rw [ha, except_bind_ok] at h
      obtain ⟨ba', hba', himpa⟩ := iha hnn.1 hclB.1 ba ha
      rcases hcase : ba with _ | _
      · rw [hcase] at h
        simp only [Bool.false_eq_true, if_false] at h
        obtain ⟨bB, hbB, himpb⟩ := ihb hnn.2 hclB.2 bA h
        rcases hcase' : ba' with _ | _
        · rw [hcase'] at hba'
          exact ⟨bB, by simp [evalCompiled, hba', hbB, except_bind_ok], himpb⟩
        · rw [hcase'] at hba'
          exact ⟨true, by simp [evalCompiled, hba', except_bind_ok], fun _ => rfl⟩
      · rw [hcase] at h
        simp only [if_true] at h
        injection h with h2
        have hba'true : ba' = true := himpa (by rw [hcase])
        rw [hba'true] at hba'
        exact ⟨true, by simp [evalCompiled, hba', except_bind_ok], fun _ => rfl⟩
  | cnot a iha => simp [noNotRule] at hnn

/-- Growing the active set only turns gene-state entries from false to
true. -/
theorem genes_state_mono (m : GPRConstrainedModel) (A B : List String)
    (hAB : ∀ g, g ∈ A → g ∈ B) :
    ∀ g bA, odFind (m.genes_state A) g = some bA →
      ∃ bB, odFind (m.genes_state B) g = some bB ∧ (bA = true → bB = true) := by
  intro g bA h
  rw [genes_state_find] at h
  rcases hf : odFind m.genes g with _ | gene
  · rw [hf] at h; cases h
  · rw [hf] at h
    simp only [Option.map] at h
    injection h with h2
    refine ⟨decide (g ∈ B), ?_, ?_⟩
    · rw [genes_state_find, hf]; rfl
    · rw [← h2]
      intro hd
      simp only [decide_eq_true_eq] at hd ⊢
      exact hAB g hd

/-- The comprehension loop is monotone for NOT-free closed predicates. -/
theorem evalGPRGo_mono (sA sB : List (String × Bool))
    (hmono : ∀ g bA, odFind sA g = some bA →
      ∃ bB, odFind sB g = some bB ∧ (bA = true → bB = true)) :
    ∀ (rfs : List (String × CompiledRule)),
    (∀ e ∈ rfs, noNotRule e.2 = true) →
    (∀ e ∈ rfs, closedRule (odKeys sB) e.2 = true) →
    ∀ LA LB, evalGPRGo sA rfs = .ok LA → evalGPRGo sB rfs = .ok LB →
      ∀ r, r ∈ LA → r ∈ LB := by
  intro rfs
  induction rfs with
  | nil =>
    intro _ _ LA LB hA hB r hr
    simp only [evalGPRGo] at hA
    injection hA with hA2
    rw [← hA2] at hr
    simp at hr
  | cons e0 rest ih =>
    obtain ⟨r0, f0⟩ := e0
    intro hnn hcl LA LB hA hB r hr
    have hnn0 : noNotRule f0 = true := hnn (r0, f0) (List.mem_cons_self _ _)
    have hcl0 : closedRule (odKeys sB) f0 = true := hcl (r0, f0) (List.mem_cons_self _ _)
    rcases ha : evalCompiled sA f0 with u | b0
    · obtain ⟨⟩ := u
      simp only [evalGPRGo, ha, except_bind_error] at hA
      cases hA
    rcases hrestA : evalGPRGo sA rest with u | LA'
    · obtain ⟨⟩ := u
      simp only [evalGPRGo, ha, except_bind_ok, hrestA, except_bind_error] at hA
      cases hA
    rcases hb : evalCompiled sB f0 with u | b0'
    · obtain ⟨⟩ := u
      simp only [evalGPRGo, hb, except_bind_error] at hB
      cases hB
    rcases hrestB : evalGPRGo sB rest with u | LB'
    · obtain ⟨⟩ := u
      simp only [evalGPRGo, hb, except_bind_ok, hrestB, except_bind_error] at hB
      cases hB
    simp only [evalGPRGo, ha, except_bind_ok, hrestA] at hA
    simp only [evalGPRGo, hb, except_bind_ok, hrestB] at hB
    injection hA with hA2
    injection hB with hB2
    have hsubrec := ih (fun e he => hnn e (List.mem_cons_of_mem _ he))
      (fun e he => hcl e (List.mem_cons_of_mem _ he)) LA' LB' hrestA hrestB
    obtain ⟨b0x, hb0x, himp⟩ := evalCompiled_mono sA sB hmono f0 hnn0 hcl0 b0 ha
    have hb0eq : b0x = b0' := by
      rw [hb0x] at hb
      injection hb
    rcases hcase : b0 with _ | _
    · rw [hcase] at hA2
      simp only [Bool.false_eq_true, if_false] at hA2
      rw [← hA2] at hr
      have hr2 : r ∈ LB' := hsubrec r hr
      rw [← hB2]
      rcases b0' with _ | _
      · simpa using hr2
      · simp only [if_true]
        exact List.mem_cons_of_mem _ hr2
    · rw [hcase] at hA2 himp
      have hb0't : b0' = true := by
        rw [← hb0eq]
        exact himp rfl
      rw [hb0't] at hB2
      simp only [if_true] at hA2 hB2
      rw [← hA2] at hr
      rw [← hB2]
      rcases List.mem_cons.mp hr with h1 | h1
      · rw [h1]
        exact List.mem_cons_self _ _
      · exact List.mem_cons_of_mem _ (hsubrec r h1)

/-- C10: for every `StoichiometricModel`, `remove_compartment` with the
cascade flag disabled deletes only the compartment entry: metabolites
(including every metabolite still referencing the removed compartment id),
reactions and stoichiometry are unchanged, so the compartment-reference
insertion invariant is not preserved by non-cascading removal. -/
theorem C10_remove_compartment_no_cascade (m : StoichiometricModel)
    (c : String) (hc : odContains m.compartments c = true) :
    (m.remove_compartment c false).compartments = odErase m.compartments c ∧
    (m.remove_compartment c false).metabolites = m.metabolites ∧
    (m.remove_compartment c false).reactions = m.reactions ∧
    (m.remove_compartment c false).stoichiometry = m.stoichiometry ∧
    odFind (m.remove_compartment c false).compartments c = none ∧
    (∀ mid met, (mid, met) ∈ m.metabolites → met.compartment = some c →
      (mid, met) ∈ (m.remove_compartment c false).metabolites) := by
  have hm : m.remove_compartment c false
      = { m with compartments := odErase m.compartments c } := by
    unfold StoichiometricModel.remove_compartment
    rw [if_pos hc]
    simp
  rw [hm]
  refine ⟨rfl, rfl, rfl, rfl, ?_, ?_⟩
  · rw [odFind_erase, if_pos rfl]
  · intro mid met hmem _
    exact hmem

/-- Witness model for C10: one compartment and one metabolite inside it. -/
def mdlC10 : StoichiometricModel :=
  { id := "w10",
    metabolites := [("h2o_c", Metabolite.mk "h2o_c" none (some "cyt"))],
    reactions := [],
    compartments := [("cyt", Compartment.mk "cyt" none)],
    stoichiometry := [] }

/-- Witness for C10 at a concrete model: the compartment entry disappears
while its metabolite stays, still referencing the removed id. -/
theorem C10_remove_compartment_no_cascade_w :
    (mdlC10.remove_compartment "cyt" false).compartments = [] ∧
    (mdlC10.remove_compartment "cyt" false).metabolites
      = [("h2o_c", Metabolite.mk "h2o_c" none (some "cyt"))] ∧
    odFind (mdlC10.remove_compartment "cyt" false).compartments "cyt" = none ∧
    ("h2o_c", Metabolite.mk "h2o_c" none (some "cyt"))
      ∈ (mdlC10.remove_compartment "cyt" false).metabolites := by
  have h := C10_remove_compartment_no_cascade mdlC10 "cyt" (by decide)
  exact ⟨h.1, h.2.1, h.2.2.2.2.1,
    h.2.2.2.2.2 "h2o_c" (Metabolite.mk "h2o_c" none (some "cyt"))
      (by decide) rfl⟩

/-- C8 (amended): a partial bound update fails with a key error exactly
when the reaction exists but has no bounds entry; an absent reaction id is
a silent no-op (not an error); with an existing entry only the given side
of that reaction's pair changes and all other entries are untouched. -/
theorem C8_partial_bound_update (m : ConstraintBasedModel) (r : String)
    (v : Option Rat) :
    (odContains m.reactions r = true → odFind m.bounds r = none →
      m.set_lower_bound r v = .err m ∧ m.set_upper_bound r v = .err m) ∧
    (odContains m.reactions r = false →
      m.set_lower_bound r v = .ok m () ∧ m.set_upper_bound r v = .ok m ()) ∧
    (∀ lb ub, odContains m.reactions r = true →
      odFind m.bounds r = some (lb, ub) →
      m.set_lower_bound r v = .ok { m with bounds := odInsert m.bounds r (v, ub) } () ∧
      m.set_upper_bound r v = .ok { m with bounds := odInsert m.bounds r (lb, v) } () ∧
      ∀ k, k ≠ r → odFind (odInsert m.bounds r (v, ub)) k = odFind m.bounds k ∧
        odFind (odInsert m.bounds r (lb, v)) k = odFind m.bounds k) := by
  refine ⟨?_, ?_, ?_⟩
  · intro hcon hnone
    unfold ConstraintBasedModel.set_lower_bound ConstraintBasedModel.set_upper_bound
    rw [if_pos hcon, if_pos hcon, hnone]
    exact ⟨rfl, rfl⟩
  · intro hcon
    unfold ConstraintBasedModel.set_lower_bound ConstraintBasedModel.set_upper_bound
    rw [if_neg (by rw [hcon]; exact Bool.false_ne_true),
      if_neg (by rw [hcon]; exact Bool.false_ne_true)]
    exact ⟨rfl, rfl⟩
  · intro lb ub hcon hsome
    unfold ConstraintBasedModel.set_lower_bound ConstraintBasedModel.set_upper_bound
    rw [if_pos hcon, if_pos hcon, hsome]
    refine ⟨rfl, rfl, ?_⟩
    intro k hk
    constructor
    · rw [odFind_insert, if_neg hk]
    · rw [odFind_insert, if_neg hk]

/-- Witness model for C8: two bounded reactions. -/
def mdlC8w : ConstraintBasedModel :=
  { id := "w8", metabolites := [], compartments := [], stoichiometry := [],
    reactions := [("Q", Reaction.mk "Q" none true), ("P", Reaction.mk "P" none false)],
    bounds := [("Q", (some 0, some 1)), ("P", (some (-2), some 2))] }

/-- Witness for C8 at a concrete model: updating the lower bound of `Q`
keeps its upper bound and the entry of `P`. -/
theorem C8_partial_bound_update_w :
    mdlC8w.set_lower_bound "Q" (some 7)
      = .ok { mdlC8w with bounds := odInsert mdlC8w.bounds "Q" (some 7, some 1) } () ∧
    odFind (odInsert mdlC8w.bounds "Q" (some 7, some 1)) "P"
      = odFind mdlC8w.bounds "P" ∧
    mdlC8w.set_lower_bound "Z" (some 7) = .ok mdlC8w () := by
  have h := C8_partial_bound_update mdlC8w "Q" (some 7)
  have h3 := h.2.2 (some 0) (some 1) (by decide) (by decide)
  have h0 := C8_partial_bound_update mdlC8w "Z" (some 7)
  exact ⟨h3.1, (h3.2.2 "P" (by decide)).1, (h0.2.1 (by decide)).1⟩

/-- Counterexample model for C8: the reaction id is absent entirely. -/
def mdlC8cex : ConstraintBasedModel :=
  { id := "c8", metabolites := [], compartments := [], stoichiometry := [],
    reactions := [], bounds := [] }

/-- Counterexample for C8 as stated: the reaction `Z` has no prior bounds
entry, yet `set_lower_bound` does not fail — it silently no-ops, because
the guard checks the reactions map, not the bounds map. -/
theorem C8_cex :
    odFind mdlC8cex.bounds "Z" = none ∧
    mdlC8cex.set_lower_bound "Z" (some 5) = .ok mdlC8cex () ∧
    (mdlC8cex.set_lower_bound "Z" (some 5)).isErr = false := by
  exact ⟨rfl, rfl, rfl⟩

/-- C5 (amended): `remove_reactions` applies in full — reactions, edges,
bounds, and rules at the GPR layer — when the id list is duplicate-free and
every id has a bounds entry (and rule entries at the GPR layer); with an id
lacking such an entry the call raises a key error and may leave the model
partially modified, so the rejection is not atomic. -/
theorem C5_remove_reactions_full (mq : ConstraintBasedModel)
    (g : GPRConstrainedModel) (ids gids : List String) :
    (ids.Nodup → (∀ i ∈ ids, odContains mq.bounds i = true) →
      mq.remove_reactions ids = .ok
        { toStoichiometricModel := { mq.toStoichiometricModel with
            reactions := odEraseList mq.reactions ids,
            stoichiometry := stoichRemoveByRxn ids mq.stoichiometry },
          bounds := odEraseList mq.bounds ids } ()) ∧
    (gids.Nodup → (∀ i ∈ gids, odContains g.bounds i = true) →
      (∀ i ∈ gids, odContains g.rules i = true) →
      (∀ i ∈ gids, odContains g.rule_functions i = true) →
      g.remove_reactions gids = .ok
        { toConstraintBasedModel :=
            { toStoichiometricModel :=
                { g.toStoichiometricModel with
                  reactions := odEraseList g.reactions gids,
                  stoichiometry := stoichRemoveByRxn gids g.stoichiometry },
              bounds := odEraseList g.bounds gids },
          genes := g.genes,
          rules := odEraseList g.rules gids,
          rule_functions := odEraseList g.rule_functions gids } ()) := by
  constructor
  · intro hnd hb
    unfold ConstraintBasedModel.remove_reactions
    rw [odDelAll_ok mq.bounds ids hnd hb]
    rfl
  · intro hnd hb hru hrf
    unfold GPRConstrainedModel.remove_reactions
      ConstraintBasedModel.remove_reactions
    rw [odDelAll_ok g.bounds gids hnd hb,
      rulesDel_ok g.rules g.rule_functions gids hnd hru hrf]
    rfl

/-- Witness models for C5: a constraint-based and a GPR model, each with
one reaction to remove. -/
def mdlC5w : ConstraintBasedModel :=
  { id := "w5", metabolites := [("m1", Metabolite.mk "m1" none none)],
    compartments := [],
    reactions := [("R", Reaction.mk "R" none false)],
    stoichiometry := [(("m1", "R"), 1)],
    bounds := [("R", (some 0, some 5))] }

/-- GPR witness model for C5. -/
def mdlC5wg : GPRConstrainedModel :=
  { id := "w5g", metabolites := [], compartments := [],
    reactions := [("R", Reaction.mk "R" none false),
      ("S", Reaction.mk "S" none false)],
    stoichiometry := [],
    bounds := [("R", (none, none)), ("S", (some 0, some 1))],
    genes := [("g1", Gene.mk "g1" none)],
    rules := [("R", some (GPRExpr.gvar "g1")), ("S", none)],
    rule_functions := [("R", CompiledRule.lookupGene "g1"),
      ("S", CompiledRule.val true)] }

/-- Witness for C5 at concrete models: both removals apply in full. -/
theorem C5_remove_reactions_full_w :
    mdlC5w.remove_reactions ["R"] = .ok
      { toStoichiometricModel := { mdlC5w.toStoichiometricModel with
          reactions := [], stoichiometry := [] },
        bounds := [] } () ∧
    mdlC5wg.remove_reactions ["R"] = .ok
      { toConstraintBasedModel :=
          { toStoichiometricModel :=
              { mdlC5wg.toStoichiometricModel with
                reactions := [("S", Reaction.mk "S" none false)],
                stoichiometry := [] },
            bounds := [("S", (some 0, some 1))] },
        genes := mdlC5wg.genes,
        rules := [("S", none)],
        rule_functions := [("S", CompiledRule.val true)] } () := by
  have h := C5_remove_reactions_full mdlC5w mdlC5wg ["R"] ["R"]
  have h1 := h.1 (by decide) (by decide)
  have h2 := h.2 (by decide) (by decide) (by decide) (by decide)
  constructor
  · rw [h1]
    rfl
  · rw [h2]
    rfl

/-- Counterexample model for C5: one bounded reaction. -/
def mdlC5cex : ConstraintBasedModel :=
  { id := "c5", metabolites := [("m1", Metabolite.mk "m1" none none)],
    compartments := [],
    reactions := [("R", Reaction.mk "R" none true)],
    stoichiometry := [(("m1", "R"), 1)],
    bounds := [("R", (some (-1), some 1))] }

/-- Counterexample for C5 as stated: removing `["R", "X"]` (where `X` was
never added) raises a key error, yet `R` and its edge and bounds entry are
already gone from the carried state — the operation neither fully applied
(it raised) nor left the model unchanged, so it is not atomic. -/
theorem C5_cex :
    (mdlC5cex.remove_reactions ["R", "X"]).isErr = true ∧
    odFind mdlC5cex.reactions "R" = some (Reaction.mk "R" none true) ∧
    odFind (mdlC5cex.remove_reactions ["R", "X"]).state.reactions "R" = none ∧
    odFind (mdlC5cex.remove_reactions ["R", "X"]).state.stoichiometry
      ("m1", "R") = none ∧
    odFind (mdlC5cex.remove_reactions ["R", "X"]).state.bounds "R" = none := by
  refine ⟨rfl, rfl, rfl, rfl, rfl⟩

/-- Model for C1: one gene, one reversible reaction with a rule. -/
def mdlC1 : GPRConstrainedModel :=
  { id := "c1", metabolites := [], compartments := [],
    reactions := [("R", Reaction.mk "R" none true)],
    stoichiometry := [],
    bounds := [("R", (some (-1), some 1))],
    genes := [("g1", Gene.mk "g1" none)],
    rules := [("R", some (GPRExpr.gvar "g1"))],
    rule_functions := [("R", CompiledRule.lookupGene "g1")] }

/-- C1: on a `GPRConstrainedModel` with a reversible ruled reaction,
`make_irreversible` raises (the source calls the nonexistent method
`add_rule`; the class defines `set_rule`), and in the state at the raise
the generated reactions carry the unset placeholder rule installed by
`add_reaction`, not a copy of the original rule text — so the rule is
never copied onto `R_f`/`R_b`. -/
theorem C1_add_rule_attribute_error :
    (make_irreversible_GPR mdlC1).isErr = true ∧
    odFind mdlC1.rules "R" = some (some (GPRExpr.gvar "g1")) ∧
    odFind (make_irreversible_GPR mdlC1).state.rules "R_f" = some none ∧
    odFind (make_irreversible_GPR mdlC1).state.rules "R_b" = some none ∧
    odFind (make_irreversible_GPR mdlC1).state.rule_functions "R_f"
      = some (CompiledRule.val true) := by
  refine ⟨rfl, rfl, rfl, rfl, rfl⟩

/-- Counterexample model for C6: a rule whose identifier was unknown at
compile time, left as a free name. -/
def mdlC6cex : GPRConstrainedModel :=
  { id := "c6", metabolites := [], compartments := [],
    reactions := [("R1", Reaction.mk "R1" none false)],
    stoichiometry := [],
    bounds := [("R1", (none, none))],
    genes := [],
    rules := [("R1", some (GPRExpr.gvar "g1"))],
    rule_functions := [("R1", CompiledRule.freeName "g1")] }

/-- Counterexample for C6 as stated: with a rule mentioning a gene unknown
at compile time, `eval_GPR` raises a `NameError` instead of returning the
list of active reactions, for any active set. -/
theorem C6_cex :
    mdlC6cex.eval_GPR ["g1"] = .error () ∧
    mdlC6cex.eval_GPR [] = .error () := by
  exact ⟨rfl, rfl⟩

/-- C6 (amended): provided every compiled predicate only looks up known
genes (no free identifiers), `eval_GPR` builds the boolean map keyed by all
known gene ids (true iff active) and returns, in insertion order, exactly
the reaction ids whose predicate evaluates true; a reaction with an unset
rule (predicate compiled to the constant true) is always included. -/
theorem C6_eval_gpr (m : GPRConstrainedModel) (act : List String)
    (hclosed : ∀ e ∈ m.rule_functions, closedRule (odKeys m.genes) e.2 = true)
    (hsync : ∀ e ∈ m.rules, e.2 = none →
      odFind m.rule_functions e.1 = some (CompiledRule.val true)) :
    m.eval_GPR act = .ok (activeList m act) ∧
    (∀ r, r ∈ activeList m act ↔ ∃ f, (r, f) ∈ m.rule_functions ∧
      evalCompiled (m.genes_state act) f = .ok true) ∧
    (∀ r, (r, (none : Option GPRExpr)) ∈ m.rules → r ∈ activeList m act) ∧
    (activeList m act).Sublist (odKeys m.rule_functions) ∧
    odKeys (m.genes_state act) = odKeys m.genes ∧
    (∀ g b, (g, b) ∈ m.genes_state act → (b = true ↔ g ∈ act)) := by
  have hkeys := genes_state_keys m act
  have hclosed2 : ∀ e ∈ m.rule_functions,
      closedRule (odKeys (m.genes_state act)) e.2 = true := by
    intro e he
    rw [hkeys]
    exact hclosed e he
  have h1 : m.eval_GPR act = .ok (activeList m act) :=
    evalGPRGo_spec (m.genes_state act) m.rule_functions hclosed2
  have h2 : ∀ r, r ∈ activeList m act ↔ ∃ f, (r, f) ∈ m.rule_functions ∧
      evalCompiled (m.genes_state act) f = .ok true := by
    intro r
    unfold activeList
    constructor
    · intro hr
      obtain ⟨e, he, hfst⟩ := List.mem_map.mp hr
      obtain ⟨hmem, hp⟩ := List.mem_filter.mp he
      refine ⟨e.2, ?_, (isOkTrue_iff _).mp hp⟩
      rw [← hfst]
      exact hmem
    · intro ⟨f, hmem, heval⟩
      refine List.mem_map.mpr ⟨(r, f), List.mem_filter.mpr ⟨hmem, ?_⟩, rfl⟩
      exact (isOkTrue_iff _).mpr heval
  refine ⟨h1, h2, ?_, ?_, hkeys, ?_⟩
  · intro r hr
    have hf := hsync (r, none) hr rfl
    exact (h2 r).mpr ⟨CompiledRule.val true, odFind_mem hf, rfl⟩
  · exact (List.filter_sublist _).map Prod.fst
  · intro g b hgb
    unfold GPRConstrainedModel.genes_state at hgb
    obtain ⟨e, _, heq⟩ := List.mem_map.mp hgb
    have hb : decide (e.1 ∈ act) = b := congrArg Prod.snd heq
    have hg : e.1 = g := congrArg Prod.fst heq
    rw [← hb, ← hg]
    simp

/-- Witness model for C6: one unset rule and one OR rule over known genes. -/
def mdlC6w : GPRConstrainedModel :=
  { id := "w6", metabolites := [], compartments := [],
    reactions := [("R1", Reaction.mk "R1" none false),
      ("R2", Reaction.mk "R2" none false)],
    stoichiometry := [],
    bounds := [("R1", (none, none)), ("R2", (none, none))],
    genes := [("g1", Gene.mk "g1" none), ("g2", Gene.mk "g2" none)],
    rules := [("R1", none),
      ("R2", some (GPRExpr.gor (GPRExpr.gvar "g1") (GPRExpr.gvar "g2")))],
    rule_functions := [("R1", CompiledRule.val true),
      ("R2", CompiledRule.cor (CompiledRule.lookupGene "g1")
        (CompiledRule.lookupGene "g2"))] }

/-- Witness for C6 at a concrete model: the call returns the filtered list
and the reaction with the unset rule is included. -/
theorem C6_eval_gpr_w :
    mdlC6w.eval_GPR ["g1"] = .ok (activeList mdlC6w ["g1"]) ∧
    activeList mdlC6w ["g1"] = ["R1", "R2"] ∧
    "R1" ∈ activeList mdlC6w ["g1"] := by
  have h := C6_eval_gpr mdlC6w ["g1"] (by decide) (by decide)
  exact ⟨h.1, by decide, h.2.2.1 "R1" (by decide)⟩

/-- C7 (amended): for rules without NOT whose identifiers were all known
genes at compile time, `eval_GPR` is monotone in the active-gene set. -/
theorem C7_eval_gpr_monotone (m : GPRConstrainedModel) (A B : List String)
    (hAB : ∀ g, g ∈ A → g ∈ B)
    (hnn : ∀ e ∈ m.rule_functions, noNotRule e.2 = true)
    (hclosed : ∀ e ∈ m.rule_functions, closedRule (odKeys m.genes) e.2 = true) :
    ∀ r, r ∈ gprResult (m.eval_GPR A) → r ∈ gprResult (m.eval_GPR B) := by
  intro r hr
  have hkeysB := genes_state_keys m B
  have hclB : ∀ e ∈ m.rule_functions,
      closedRule (odKeys (m.genes_state B)) e.2 = true := by
    intro e he
    rw [hkeysB]
    exact hclosed e he
  have hBok : evalGPRGo (m.genes_state B) m.rule_functions
      = .ok ((m.rule_functions.filter
        (fun e => isOkTrue (evalCompiled (m.genes_state B) e.2))).map Prod.fst) :=
    evalGPRGo_spec (m.genes_state B) m.rule_functions hclB
  rcases hA : m.eval_GPR A with u | LA
  · rw [hA] at hr
    simp [gprResult] at hr
  · rw [hA] at hr
    have hmono := genes_state_mono m A B hAB
    have hmem := evalGPRGo_mono (m.genes_state A) (m.genes_state B) hmono
      m.rule_functions hnn hclB LA _ hA hBok r hr
    show r ∈ gprResult (evalGPRGo (m.genes_state B) m.rule_functions)
    rw [hBok]
    exact hmem

/-- Counterexample model for C7: a NOT-free rule with a free identifier
that short-circuits under the smaller gene set only. -/
def mdlC7cex : GPRConstrainedModel :=
  { id := "c7", metabolites := [], compartments := [],
    reactions := [("R1", Reaction.mk "R1" none false),
      ("R2", Reaction.mk "R2" none false)],
    stoichiometry := [],
    bounds := [("R1", (none, none)), ("R2", (none, none))],
    genes := [("g1", Gene.mk "g1" none)],
    rules := [("R1", none),
      ("R2", some (GPRExpr.gand (GPRExpr.gvar "g1") (GPRExpr.gvar "g2")))],
    rule_functions := [("R1", CompiledRule.val true),
      ("R2", CompiledRule.cand (CompiledRule.lookupGene "g1")
        (CompiledRule.freeName "g2"))] }

/-- Counterexample for C7 as stated: all rules are NOT-free and the active
sets grow, yet `R1` is reported active for the empty set while the larger
set makes the evaluation raise (Python short-circuit reaches the free
identifier), so no reaction at all is reported. -/
theorem C7_cex :
    (∀ e ∈ mdlC7cex.rule_functions, noNotRule e.2 = true) ∧
    (∀ g, g ∈ ([] : List String) → g ∈ ["g1"]) ∧
    "R1" ∈ gprResult (mdlC7cex.eval_GPR []) ∧
    mdlC7cex.eval_GPR ["g1"] = .error () ∧
    ¬ "R1" ∈ gprResult (mdlC7cex.eval_GPR ["g1"]) := by
  refine ⟨by decide, by decide, by decide, rfl, by decide⟩

/-- Witness model for C7: NOT-free closed rules. -/
def mdlC7w : GPRConstrainedModel :=
  { id := "w7", metabolites := [], compartments := [],
    reactions := [("R1", Reaction.mk "R1" none false),
      ("R2", Reaction.mk "R2" none false)],
    stoichiometry := [],
    bounds := [("R1", (none, none)), ("R2", (none, none))],
    genes := [("g1", Gene.mk "g1" none), ("g2", Gene.mk "g2" none)],
    rules := [("R1", none),
      ("R2", some (GPRExpr.gand (GPRExpr.gvar "g1") (GPRExpr.gvar "g2")))],
    rule_functions := [("R1", CompiledRule.val true),
      ("R2", CompiledRule.cand (CompiledRule.lookupGene "g1")
        (CompiledRule.lookupGene "g2"))] }

/-- Witness for C7 at a concrete model: a reaction active under the
smaller set stays active under the larger one. -/
theorem C7_eval_gpr_monotone_w :
    "R1" ∈ gprResult (mdlC7w.eval_GPR ["g1", "g2"]) := by
  exact C7_eval_gpr_monotone mdlC7w ["g1"] ["g1", "g2"] (by decide)
    (by decide) (by decide) "R1" (by decide)

/-- On a well-formed constraint-based model with fresh split ids,
`make_irreversible` returns, produces the mapping of the stoichiometric
loop, and its graph layer agrees with the stoichiometric loop. -/
theorem make_irreversible_constraint_ok (m : ConstraintBasedModel)
    (hwf : m.wf) (hfresh : m.toStoichiometricModel.freshSplitIds) :
    ∃ mC, make_irreversible_constraint m
        = .ok mC (make_irreversible_stoich m.toStoichiometricModel).2 ∧
      mC.toStoichiometricModel
        = (make_irreversible_stoich m.toStoichiometricModel).1 := by
  obtain ⟨⟨hnd, hid, hstnd, hstref⟩, hbnd⟩ := hwf
  exact irrevGoC_agree m.toStoichiometricModel.reaction_metabolite_lookup_table
    (odKeys m.reactions) m.reactions m []
    (fun e he => List.mem_map_of_mem Prod.fst he) hid hnd hfresh hbnd

/-- C2 (amended): for every model of any layer whose reversible reactions
have fresh generated ids (no `<r>_f`/`<r>_b` collides with an existing
reaction id), when `make_irreversible` returns: each reaction reversible at
call time is gone, its `<r>_f` and `<r>_b` reactions are present and
irreversible, and the returned mapping binds exactly the originally
reversible reaction ids to their `(forward, backward)` pair. -/
theorem C2_split_reactions (am am' : AnyModel)
    (mp : List (String × (String × String)))
    (hwf : am.wf) (hfresh : am.freshSplitIds)
    (hok : make_irreversible am = .ok am' mp) :
    (∀ r rx, (r, rx) ∈ am.reactions → rx.reversible = true →
      odFind am'.reactions r = none ∧
      odFind am'.reactions (r ++ "_f")
        = some (Reaction.mk (r ++ "_f") rx.name false) ∧
      odFind am'.reactions (r ++ "_b")
        = some (Reaction.mk (r ++ "_b") rx.name false) ∧
      odFind mp r = some (r ++ "_f", r ++ "_b")) ∧
    (∀ k v, odFind mp k = some v → ∃ rx, (k, rx) ∈ am.reactions ∧
      rx.reversible = true ∧ v = (k ++ "_f", k ++ "_b")) := by
  cases am with
  | stoich m =>
    obtain ⟨hnd, hid, hstnd, hstref⟩ := hwf
    simp only [make_irreversible, PyResult.ok.injEq] at hok
    obtain ⟨ham', hmp⟩ := hok
    subst ham'
    subst hmp
    have hsub : ∀ e ∈ m.reactions, e.1 ∈ odKeys m.reactions :=
      fun e he => List.mem_map_of_mem Prod.fst he
    constructor
    · intro r rx hmem hrev
      have hest := irrevGoS_reactions_est
        m.reaction_metabolite_lookup_table (odKeys m.reactions)
        m.reactions m [] hsub hid hnd hfresh (r, rx) hmem hrev
      have hmap := irrevGoS_mapping_est
        m.reaction_metabolite_lookup_table m.reactions m [] hid hnd
        (r, rx) hmem hrev
      exact ⟨hest.1, hest.2.1, hest.2.2, hmap⟩
    · intro k v hfind
      rcases irrevGoS_mapping_sub m.reaction_metabolite_lookup_table
          m.reactions m [] k v hfind with h0 | ⟨e, he, hk, hrev, hv⟩
      · cases h0
      · refine ⟨e.2, ?_, hrev, ?_⟩
        · rw [← hk]
          exact he
        · rw [hv, hid e he, hk]
  | constraint m =>
    obtain ⟨mC, hceq, hts⟩ := make_irreversible_constraint_ok m hwf hfresh
    simp only [make_irreversible, hceq, PyResult.ok.injEq] at hok
    obtain ⟨ham', hmp⟩ := hok
    subst ham'
    subst hmp
    obtain ⟨⟨hnd, hid, hstnd, hstref⟩, hbnd⟩ := hwf
    have hsub : ∀ e ∈ m.reactions, e.1 ∈ odKeys m.reactions :=
      fun e he => List.mem_map_of_mem Prod.fst he
    have hre : (AnyModel.constraint mC).reactions
        = (make_irreversible_stoich m.toStoichiometricModel).1.reactions := by
      show mC.toStoichiometricModel.reactions = _
      rw [hts]
    constructor
    · intro r rx hmem hrev
      have hest := irrevGoS_reactions_est
        m.toStoichiometricModel.reaction_metabolite_lookup_table
        (odKeys m.reactions) m.reactions m.toStoichiometricModel [] hsub hid hnd
        hfresh (r, rx) hmem hrev
      have hmap := irrevGoS_mapping_est
        m.toStoichiometricModel.reaction_metabolite_lookup_table
        m.reactions m.toStoichiometricModel [] hid hnd (r, rx) hmem hrev
      rw [hre]
      exact ⟨hest.1, hest.2.1, hest.2.2, hmap⟩
    · intro k v hfind
      rcases irrevGoS_mapping_sub
          m.toStoichiometricModel.reaction_metabolite_lookup_table
          m.reactions m.toStoichiometricModel [] k v hfind with h0 | ⟨e, he, hk, hrev, hv⟩
      · cases h0
      · refine ⟨e.2, ?_, hrev, ?_⟩
        · rw [← hk]
          exact he
        · rw [hv, hid e he, hk]
  | gpr m =>
    rcases hg : make_irreversible_GPR m with ⟨mg, mpg⟩ | mg
    · simp only [make_irreversible, hg, PyResult.ok.injEq] at hok
      obtain ⟨ham', hmp⟩ := hok
      subst ham'
      subst hmp
      obtain ⟨_, _, hnorev⟩ := irrevGoG_ok
        m.toStoichiometricModel.reaction_metabolite_lookup_table
        m.reactions m [] mg mpg hg
      constructor
      · intro r rx hmem hrev
        have := hnorev (r, rx) hmem
        rw [hrev] at this
        cases this
      · intro k v hfind
        obtain ⟨_, hmp2, _⟩ := irrevGoG_ok
          m.toStoichiometricModel.reaction_metabolite_lookup_table
          m.reactions m [] mg mpg hg
        rw [hmp2] at hfind
        cases hfind
    · simp only [make_irreversible, hg] at hok
      cases hok

/-- Decidability of the graph-layer well-formedness predicate. -/
instance (m : StoichiometricModel) : Decidable m.wf := by
  unfold StoichiometricModel.wf
  infer_instance

/-- Decidability of the freshness predicate. -/
instance (m : StoichiometricModel) : Decidable m.freshSplitIds := by
  unfold StoichiometricModel.freshSplitIds
  infer_instance

/-- Decidability of the constraint-layer well-formedness predicate. -/
instance (m : ConstraintBasedModel) : Decidable m.wf := by
  unfold ConstraintBasedModel.wf
  infer_instance

/-- Decidability of well-formedness over the layer hierarchy. -/
instance (am : AnyModel) : Decidable am.wf := by
  cases am <;> (unfold AnyModel.wf; infer_instance)

/-- Decidability of freshness over the layer hierarchy. -/
instance (am : AnyModel) : Decidable am.freshSplitIds := by
  cases am <;> (unfold AnyModel.freshSplitIds; infer_instance)

/-- Counterexample model for C2: the id of one reversible reaction is the
generated forward id of another. -/
def mdlC2cex : StoichiometricModel :=
  { id := "c2", metabolites := [("m1", Metabolite.mk "m1" none none)],
    compartments := [],
    reactions := [("A_f", Reaction.mk "A_f" none true),
      ("A", Reaction.mk "A" none true)],
    stoichiometry := [] }

/-- Counterexample for C2 as stated: `A_f` is reversible at call time, the
call returns, yet `A_f` is still present afterwards (splitting `A`
re-created it), so a reversible reaction is not absent from the result. -/
theorem C2_cex :
    odFind mdlC2cex.reactions "A_f" = some (Reaction.mk "A_f" none true) ∧
    (make_irreversible (AnyModel.stoich mdlC2cex)).isErr = false ∧
    odFind (make_irreversible (AnyModel.stoich mdlC2cex)).state.reactions "A_f"
      = some (Reaction.mk "A_f" none false) := by
  refine ⟨rfl, rfl, rfl⟩

/-- Witness model for C2: the concrete scenario of the specification. -/
def mdlC2w : ConstraintBasedModel :=
  { id := "w2",
    metabolites := [("A", Metabolite.mk "A" none none),
      ("B", Metabolite.mk "B" none none)],
    compartments := [],
    reactions := [("R", Reaction.mk "R" (some "nm") true)],
    stoichiometry := [(("A", "R"), -1), (("B", "R"), 1)],
    bounds := [("R", (some (-10), some 10))] }

/-- Model produced by splitting the C2 witness model. -/
def mdlC2wRes : ConstraintBasedModel :=
  { id := "w2",
    metabolites := [("A", Metabolite.mk "A" none none),
      ("B", Metabolite.mk "B" none none)],
    compartments := [],
    reactions := [("R_f", Reaction.mk "R_f" (some "nm") false),
      ("R_b", Reaction.mk "R_b" (some "nm") false)],
    stoichiometry := [(("A", "R_f"), -1), (("A", "R_b"), 1),
      (("B", "R_f"), 1), (("B", "R_b"), -1)],
    bounds := [("R_f", (some 0, some 10)), ("R_b", (some 0, some 10))] }

/-- Witness for C2 at the concrete scenario model. -/
theorem C2_split_reactions_w :
    odFind (AnyModel.constraint mdlC2wRes).reactions "R" = none ∧
    odFind (AnyModel.constraint mdlC2wRes).reactions "R_f"
      = some (Reaction.mk "R_f" (some "nm") false) ∧
    odFind (AnyModel.constraint mdlC2wRes).reactions "R_b"
      = some (Reaction.mk "R_b" (some "nm") false) ∧
    odFind [("R", ("R_f", "R_b"))] "R" = some ("R_f", "R_b") := by
  have h := C2_split_reactions (AnyModel.constraint mdlC2w)
    (AnyModel.constraint mdlC2wRes) [("R", ("R_f", "R_b"))]
    (by decide) (by decide) (by decide)
  exact h.1 "R" (Reaction.mk "R" (some "nm") true) (by decide) rfl

/-- C3 (amended): for every constraint-based (or deeper) model whose
reversible reactions have fresh generated ids, when `make_irreversible`
returns: a reaction reversible at call time with bounds `(lb, ub)` yields
forward bounds `(0, ub)` and backward bounds `(0, -lb)` when `lb` is a
value, `(0, unbounded)` when `lb` is the unbounded marker, while its own
bounds entry is gone. -/
theorem C3_split_bounds (am am' : AnyModel)
    (mp : List (String × (String × String)))
    (hwf : am.wf) (hfresh : am.freshSplitIds)
    (hok : make_irreversible am = .ok am' mp) :
    ∀ r rx, (r, rx) ∈ am.reactions → rx.reversible = true →
      ∀ Bnds lb ub, am.boundsOf = some Bnds → odFind Bnds r = some (lb, ub) →
        ∃ Bnds2, am'.boundsOf = some Bnds2 ∧
          odFind Bnds2 (r ++ "_f") = some (some 0, ub) ∧
          odFind Bnds2 (r ++ "_b") = some (some 0, negBound lb) ∧
          odFind Bnds2 r = none := by
  cases am with
  | stoich m =>
    intro r rx _ _ Bnds lb ub hB _
    cases hB
  | constraint m =>
    obtain ⟨mC, hceq, hts⟩ := make_irreversible_constraint_ok m hwf hfresh
    simp only [make_irreversible, hceq, PyResult.ok.injEq] at hok
    obtain ⟨ham', hmp⟩ := hok
    subst ham'
    subst hmp
    obtain ⟨⟨hnd, hid, hstnd, hstref⟩, hbnd⟩ := hwf
    intro r rx hmem hrev Bnds lb ub hB hfind
    have hBeq : Bnds = m.bounds := by
      simp only [AnyModel.boundsOf] at hB
      injection hB with h2
      exact h2.symm
    subst hBeq
    have hest := irrevGoC_bounds_est
      m.toStoichiometricModel.reaction_metabolite_lookup_table
      (odKeys m.reactions) m.reactions m []
      (fun e he => List.mem_map_of_mem Prod.fst he) hid hnd hfresh hbnd
      (r, rx) hmem hrev lb ub hfind
    have hstate : (irrevGoC m.toStoichiometricModel.reaction_metabolite_lookup_table
        m.reactions m []).state = mC := by
      have hx2 : irrevGoC m.toStoichiometricModel.reaction_metabolite_lookup_table
          m.reactions m []
          = .ok mC (make_irreversible_stoich m.toStoichiometricModel).2 := hceq
      rw [hx2]
      rfl
    refine ⟨mC.bounds, rfl, ?_, ?_, ?_⟩
    · rw [← hstate]
      exact hest.1
    · rw [← hstate]
      exact hest.2.1
    · rw [← hstate]
      exact hest.2.2
  | gpr m =>
    rcases hg : make_irreversible_GPR m with ⟨mg, mpg⟩ | mg
    · simp only [make_irreversible, hg, PyResult.ok.injEq] at hok
      obtain ⟨ham', hmp⟩ := hok
      subst ham'
      subst hmp
      obtain ⟨_, _, hnorev⟩ := irrevGoG_ok
        m.toStoichiometricModel.reaction_metabolite_lookup_table
        m.reactions m [] mg mpg hg
      intro r rx hmem hrev
      have := hnorev (r, rx) hmem
      rw [hrev] at this
      cases this
    · simp only [make_irreversible, hg] at hok
      cases hok

/-- Counterexample model for C3: the forward id of reversible `A` is the id
of another reversible reaction with different bounds. -/
def mdlC3cex : ConstraintBasedModel :=
  { id := "c3", metabolites := [], compartments := [],
    reactions := [("A", Reaction.mk "A" none true),
      ("A_f", Reaction.mk "A_f" none true)],
    stoichiometry := [],
    bounds := [("A", (some (-10), some 10)), ("A_f", (some (-5), some 5))] }

/-- Counterexample for C3 as stated: `A` was reversible with bounds
`(-10, 10)` and the call returns, yet afterwards there is no bounds entry
at all under the forward id `A_f` (the colliding reaction was split and
removed later), instead of the promised `(0, 10)`. -/
theorem C3_cex :
    odFind mdlC3cex.bounds "A" = some (some (-10), some 10) ∧
    odFind mdlC3cex.reactions "A" = some (Reaction.mk "A" none true) ∧
    (make_irreversible_constraint mdlC3cex).isErr = false ∧
    odFind (make_irreversible_constraint mdlC3cex).state.bounds "A_f" = none := by
  refine ⟨rfl, rfl, rfl, rfl⟩

/-- Witness model for C3: one reaction with finite bounds, one with an
unbounded lower bound. -/
def mdlC3w : ConstraintBasedModel :=
  { id := "w3", metabolites := [], compartments := [],
    reactions := [("R", Reaction.mk "R" none true),
      ("T", Reaction.mk "T" none true)],
    stoichiometry := [],
    bounds := [("R", (some (-3), some 4)), ("T", (none, some 7))] }

/-- Model produced by splitting the C3 witness model. -/
def mdlC3wRes : ConstraintBasedModel :=
  { id := "w3", metabolites := [], compartments := [],
    reactions := [("R_f", Reaction.mk "R_f" none false),
      ("R_b", Reaction.mk "R_b" none false),
      ("T_f", Reaction.mk "T_f" none false),
      ("T_b", Reaction.mk "T_b" none false)],
    stoichiometry := [],
    bounds := [("R_f", (some 0, some 4)), ("R_b", (some 0, some 3)),
      ("T_f", (some 0, some 7)), ("T_b", (some 0, none))] }

/-- Witness for C3 at a concrete model, covering a finite and an unbounded
original lower bound. -/
theorem C3_split_bounds_w :
    odFind mdlC3wRes.bounds "R_f" = some (some 0, some 4) ∧
    odFind mdlC3wRes.bounds "R_b" = some (some 0, some 3) ∧
    odFind mdlC3wRes.bounds "T_b" = some (some 0, none) ∧
    odFind mdlC3wRes.bounds "R" = none := by
  have h := C3_split_bounds (AnyModel.constraint mdlC3w)
    (AnyModel.constraint mdlC3wRes)
    [("R", ("R_f", "R_b")), ("T", ("T_f", "T_b"))]
    (by decide) (by decide) (by decide)
  obtain ⟨B2, hB2, hf, hb, ho⟩ := h "R" (Reaction.mk "R" none true)
    (by decide) rfl mdlC3w.bounds (some (-3)) (some 4) rfl rfl
  obtain ⟨B3, hB3, _, hb3, _⟩ := h "T" (Reaction.mk "T" none true)
    (by decide) rfl mdlC3w.bounds none (some 7) rfl rfl
  have hBeq : B2 = mdlC3wRes.bounds := by
    simp only [AnyModel.boundsOf] at hB2
    injection hB2 with h2
    exact h2.symm
  have hBeq3 : B3 = mdlC3wRes.bounds := by
    simp only [AnyModel.boundsOf] at hB3
    injection hB3 with h2
    exact h2.symm
  rw [hBeq] at hf hb ho
  rw [hBeq3] at hb3
  exact ⟨hf, hb, hb3, ho⟩

/-- C4 (amended): for every model of any layer whose reversible reactions
have fresh generated ids, when `make_irreversible` returns: each edge
`(m, r, c)` of a reaction reversible at call time reappears as coefficient
`c` on `(m, r_f)` and `-c` on `(m, r_b)`. -/
theorem C4_split_edges (am am' : AnyModel)
    (mp : List (String × (String × String)))
    (hwf : am.wf) (hfresh : am.freshSplitIds)
    (hok : make_irreversible am = .ok am' mp) :
    ∀ mi r c, ((mi, r), c) ∈ am.stoichiometry →
      ∀ rx, (r, rx) ∈ am.reactions → rx.reversible = true →
        odFind am'.stoichiometry (mi, r ++ "_f") = some c ∧
        odFind am'.stoichiometry (mi, r ++ "_b") = some (-c) := by
  cases am with
  | stoich m =>
    obtain ⟨hnd, hid, hstnd, hstref⟩ := hwf
    simp only [make_irreversible, PyResult.ok.injEq] at hok
    obtain ⟨ham', hmp⟩ := hok
    subst ham'
    subst hmp
    intro mi r c hedge rx hmem hrev
    obtain ⟨row, hrow, hrownd, hcoef⟩ := table_row_spec m hstnd r
      (List.mem_map_of_mem Prod.fst hmem)
    exact irrevGoS_stoich_est m.reaction_metabolite_lookup_table
      (odKeys m.reactions) m.reactions m []
      (fun e he => List.mem_map_of_mem Prod.fst he) hid hnd hfresh
      (r, rx) hmem hrev row hrow hrownd mi c (hcoef mi c hedge)
  | constraint m =>
    obtain ⟨mC, hceq, hts⟩ := make_irreversible_constraint_ok m hwf hfresh
    simp only [make_irreversible, hceq, PyResult.ok.injEq] at hok
    obtain ⟨ham', hmp⟩ := hok
    subst ham'
    subst hmp
    obtain ⟨⟨hnd, hid, hstnd, hstref⟩, hbnd⟩ := hwf
    intro mi r c hedge rx hmem hrev
    obtain ⟨row, hrow, hrownd, hcoef⟩ := table_row_spec m.toStoichiometricModel
      hstnd r (List.mem_map_of_mem Prod.fst hmem)
    have hre : (AnyModel.constraint mC).stoichiometry
        = (make_irreversible_stoich m.toStoichiometricModel).1.stoichiometry := by
      show mC.toStoichiometricModel.stoichiometry = _
      rw [hts]
    rw [hre]
    exact irrevGoS_stoich_est
      m.toStoichiometricModel.reaction_metabolite_lookup_table
      (odKeys m.reactions) m.reactions m.toStoichiometricModel []
      (fun e he => List.mem_map_of_mem Prod.fst he) hid hnd hfresh
      (r, rx) hmem hrev row hrow hrownd mi c (hcoef mi c hedge)
  | gpr m =>
    rcases hg : make_irreversible_GPR m with ⟨mg, mpg⟩ | mg
    · simp only [make_irreversible, hg, PyResult.ok.injEq] at hok
      obtain ⟨ham', hmp⟩ := hok
      subst ham'
      subst hmp
      obtain ⟨_, _, hnorev⟩ := irrevGoG_ok
        m.toStoichiometricModel.reaction_metabolite_lookup_table
        m.reactions m [] mg mpg hg
      intro mi r c _ rx hmem hrev
      have := hnorev (r, rx) hmem
      rw [hrev] at this
      cases this
    · simp only [make_irreversible, hg] at hok
      cases hok

/-- Counterexample model for C4: the forward id of reversible `A` names
another reversible reaction carrying an edge. -/
def mdlC4cex : StoichiometricModel :=
  { id := "c4", metabolites := [("m1", Metabolite.mk "m1" none none)],
    compartments := [],
    reactions := [("A", Reaction.mk "A" none true),
      ("A_f", Reaction.mk "A_f" none true)],
    stoichiometry := [(("m1", "A"), 3), (("m1", "A_f"), 2)] }

/-- Counterexample for C4 as stated: the edge `(m1, A, 3)` of reversible
`A` should reappear as `(m1, A_f) = 3`, but after the call the edge
`(m1, A_f)` does not exist at all (the colliding reaction was split and
removed later, taking the freshly installed edge with it). -/
theorem C4_cex :
    (("m1", "A"), (3 : Rat)) ∈ mdlC4cex.stoichiometry ∧
    odFind mdlC4cex.reactions "A" = some (Reaction.mk "A" none true) ∧
    (make_irreversible (AnyModel.stoich mdlC4cex)).isErr = false ∧
    odFind (make_irreversible (AnyModel.stoich mdlC4cex)).state.stoichiometry
      ("m1", "A_f") = none := by
  refine ⟨by decide, rfl, rfl, rfl⟩

/-- Witness model for C4: one reversible reaction with two edges and one
irreversible bystander. -/
def mdlC4w : StoichiometricModel :=
  { id := "w4",
    metabolites := [("A", Metabolite.mk "A" none none),
      ("B", Metabolite.mk "B" none none)],
    compartments := [],
    reactions := [("R", Reaction.mk "R" none true),
      ("S", Reaction.mk "S" none false)],
    stoichiometry := [(("A", "R"), -1), (("B", "R"), 2), (("A", "S"), 5)] }

/-- Model produced by splitting the C4 witness model. -/
def mdlC4wRes : StoichiometricModel :=
  { id := "w4",
    metabolites := [("A", Metabolite.mk "A" none none),
      ("B", Metabolite.mk "B" none none)],
    compartments := [],
    reactions := [("S", Reaction.mk "S" none false),
      ("R_f", Reaction.mk "R_f" none false),
      ("R_b", Reaction.mk "R_b" none false)],
    stoichiometry := [(("A", "S"), 5), (("A", "R_f"), -1), (("A", "R_b"), 1),
      (("B", "R_f"), 2), (("B", "R_b"), -2)] }

/-- Witness for C4 at a concrete model. -/
theorem C4_split_edges_w :
    odFind (AnyModel.stoich mdlC4wRes).stoichiometry ("A", "R_f")
      = some (-1) ∧
    odFind (AnyModel.stoich mdlC4wRes).stoichiometry ("A", "R_b") = some 1 ∧
    odFind (AnyModel.stoich mdlC4wRes).stoichiometry ("B", "R_f") = some 2 ∧
    odFind (AnyModel.stoich mdlC4wRes).stoichiometry ("B", "R_b")
      = some (-2) := by
  have h := C4_split_edges (AnyModel.stoich mdlC4w) (AnyModel.stoich mdlC4wRes)
    [("R", ("R_f", "R_b"))] (by decide) (by decide) (by decide)
  have h1 := h "A" "R" (-1) (by decide) (Reaction.mk "R" none true) (by decide) rfl
  have h2 := h "B" "R" 2 (by decide) (Reaction.mk "R" none true) (by decide) rfl
  exact ⟨h1.1, by simpa using h1.2, h2.1, h2.2⟩

/-- C9 (amended): for every model of any layer, well-formed and with fresh
generated ids, `make_irreversible` is the identity on the non-reversible
subset — whether the call returns or raises, the state carries every
non-reversible reaction unchanged, with its edges, and (where the layer
has them) its bounds and rule entries, and such reactions never appear as
keys of a returned mapping. -/
theorem C9_nonreversible_identity (am : AnyModel)
    (hwf : am.wf) (hfresh : am.freshSplitIds) :
    ∀ r rx, (r, rx) ∈ am.reactions → rx.reversible = false →
      odFind (make_irreversible am).state.reactions r = odFind am.reactions r ∧
      (∀ mi, odFind (make_irreversible am).state.stoichiometry (mi, r)
        = odFind am.stoichiometry (mi, r)) ∧
      (∀ Bnds Bnds2, am.boundsOf = some Bnds →
        (make_irreversible am).state.boundsOf = some Bnds2 →
        odFind Bnds2 r = odFind Bnds r) ∧
      (∀ Ru Ru2, am.rulesOf = some Ru →
        (make_irreversible am).state.rulesOf = some Ru2 →
        odFind Ru2 r = odFind Ru r) ∧
      (∀ am2 mp2, make_irreversible am = .ok am2 mp2 → odFind mp2 r = none) := by
  cases am with
  | stoich m =>
    obtain ⟨hnd, hid, hstnd, hstref⟩ := hwf
    intro r rx hmem hrev
    have hsub : ∀ e ∈ m.reactions, e.1 ∈ odKeys m.reactions :=
      fun e he => List.mem_map_of_mem Prod.fst he
    have hun : untouchedRxn r m.reactions := by
      have hx := untouchedRxn_of_nonrev (odKeys m.reactions) m.reactions hsub
        hid hnd hfresh (r, rx) hmem hrev
      exact hx
    refine ⟨?_, ?_, ?_, ?_, ?_⟩
    · exact irrevGoS_reactions_frame m.reaction_metabolite_lookup_table
        m.reactions m [] r hun
    · intro mi
      exact irrevGoS_stoich_frame m.reaction_metabolite_lookup_table
        m.reactions m [] (mi, r) hun
    · intro Bnds Bnds2 hB _
      cases hB
    · intro Ru Ru2 hR _
      cases hR
    · intro am2 mp2 hok
      simp only [make_irreversible, PyResult.ok.injEq] at hok
      rw [← hok.2]
      show odFind (irrevGoS m.reaction_metabolite_lookup_table
        m.reactions m []).2 r = none
      rw [irrevGoS_mapping_frame m.reaction_metabolite_lookup_table
        m.reactions m [] r (fun e he hrev2 => (hun e he hrev2).1)]
      rfl
  | constraint m =>
    obtain ⟨mC, hceq, hts⟩ := make_irreversible_constraint_ok m hwf hfresh
    obtain ⟨⟨hnd, hid, hstnd, hstref⟩, hbnd⟩ := hwf
    intro r rx hmem hrev
    have hsub : ∀ e ∈ m.reactions, e.1 ∈ odKeys m.reactions :=
      fun e he => List.mem_map_of_mem Prod.fst he
    have hun : untouchedRxn r m.reactions := by
      have hx := untouchedRxn_of_nonrev (odKeys m.reactions) m.reactions hsub
        hid hnd hfresh (r, rx) hmem hrev
      exact hx
    have hstate : (make_irreversible (AnyModel.constraint m)).state
        = AnyModel.constraint mC := by
      simp only [make_irreversible, hceq]
      rfl
    have hCstate : (irrevGoC m.toStoichiometricModel.reaction_metabolite_lookup_table
        m.reactions m []).state = mC := by
      have hx2 : irrevGoC m.toStoichiometricModel.reaction_metabolite_lookup_table
          m.reactions m []
          = .ok mC (make_irreversible_stoich m.toStoichiometricModel).2 := hceq
      rw [hx2]
      rfl
    rw [hstate]
    refine ⟨?_, ?_, ?_, ?_, ?_⟩
    · show odFind mC.toStoichiometricModel.reactions r = odFind m.reactions r
      rw [hts]
      exact irrevGoS_reactions_frame
        m.toStoichiometricModel.reaction_metabolite_lookup_table
        m.reactions m.toStoichiometricModel [] r hun
    · intro mi
      show odFind mC.toStoichiometricModel.stoichiometry (mi, r)
        = odFind m.stoichiometry (mi, r)
      rw [hts]
      exact irrevGoS_stoich_frame
        m.toStoichiometricModel.reaction_metabolite_lookup_table
        m.reactions m.toStoichiometricModel [] (mi, r) hun
    · intro Bnds Bnds2 hB hB2
      have h1 : Bnds = m.bounds := by
        simp only [AnyModel.boundsOf] at hB
        injection hB with h2
        exact h2.symm
      have h2 : Bnds2 = mC.bounds := by
        simp only [AnyModel.boundsOf] at hB2
        injection hB2 with h3
        exact h3.symm
      subst h1
      subst h2
      rw [← hCstate]
      exact irrevGoC_bounds_frame
        m.toStoichiometricModel.reaction_metabolite_lookup_table
        (odKeys m.reactions) m.reactions m [] hsub hid hnd hfresh hbnd r hun
    · intro Ru Ru2 hR _
      cases hR
    · intro am2 mp2 hok
      simp only [make_irreversible, hceq, PyResult.ok.injEq] at hok
      rw [← hok.2]
      show odFind (irrevGoS m.toStoichiometricModel.reaction_metabolite_lookup_table
        m.reactions m.toStoichiometricModel []).2 r = none
      rw [irrevGoS_mapping_frame
        m.toStoichiometricModel.reaction_metabolite_lookup_table
        m.reactions m.toStoichiometricModel [] r
        (fun e he hrev2 => (hun e he hrev2).1)]
      rfl
  | gpr m =>
    obtain ⟨⟨hnd, hid, hstnd, hstref⟩, hbnd⟩ := hwf
    intro r rx hmem hrev
    have hsub : ∀ e ∈ m.reactions, e.1 ∈ odKeys m.reactions :=
      fun e he => List.mem_map_of_mem Prod.fst he
    have hun : untouchedRxn r m.reactions := by
      have hx := untouchedRxn_of_nonrev (odKeys m.reactions) m.reactions hsub
        hid hnd hfresh (r, rx) hmem hrev
      exact hx
    have hframe := irrevGoG_frame
      m.toStoichiometricModel.reaction_metabolite_lookup_table
      m.reactions m [] r hun
    have hstate : (make_irreversible (AnyModel.gpr m)).state
        = AnyModel.gpr ((irrevGoG
          m.toStoichiometricModel.reaction_metabolite_lookup_table
          m.reactions m []).state) := by
      rcases hg : make_irreversible_GPR m with ⟨mg, mpg⟩ | mg
      · simp only [make_irreversible, hg]
        have hg2 : irrevGoG m.toStoichiometricModel.reaction_metabolite_lookup_table
            m.reactions m [] = .ok mg mpg := hg
        rw [hg2]
        rfl
      · simp only [make_irreversible, hg]
        have hg2 : irrevGoG m.toStoichiometricModel.reaction_metabolite_lookup_table
            m.reactions m [] = .err mg := hg
        rw [hg2]
        rfl
    rw [hstate]
    refine ⟨hframe.1, hframe.2.1, ?_, ?_, ?_⟩
    · intro Bnds Bnds2 hB hB2
      have h1 : Bnds = m.bounds := by
        simp only [AnyModel.boundsOf] at hB
        injection hB with h2
        exact h2.symm
      have h2 : Bnds2 = (irrevGoG
          m.toStoichiometricModel.reaction_metabolite_lookup_table
          m.reactions m []).state.bounds := by
        simp only [AnyModel.boundsOf] at hB2
        injection hB2 with h3
        exact h3.symm
      subst h1
      subst h2
      exact hframe.2.2.1
    · intro Ru Ru2 hR hR2
      have h1 : Ru = m.rules := by
        simp only [AnyModel.rulesOf] at hR
        injection hR with h2
        exact h2.symm
      have h2 : Ru2 = (irrevGoG
          m.toStoichiometricModel.reaction_metabolite_lookup_table
          m.reactions m []).state.rules := by
        simp only [AnyModel.rulesOf] at hR2
        injection hR2 with h3
        exact h3.symm
      subst h1
      subst h2
      exact hframe.2.2.2.1
    · intro am2 mp2 hok
      rcases hg : make_irreversible_GPR m with ⟨mg, mpg⟩ | mg
      · simp only [make_irreversible, hg, PyResult.ok.injEq] at hok
        obtain ⟨_, hmp2, _⟩ := irrevGoG_ok
          m.toStoichiometricModel.reaction_metabolite_lookup_table
          m.reactions m [] mg mpg hg
        rw [← hok.2, hmp2]
        rfl
      · simp only [make_irreversible, hg] at hok
        cases hok

/-- Counterexample model for C9: an irreversible reaction whose id is the
generated forward id of a reversible one. -/
def mdlC9cex : StoichiometricModel :=
  { id := "c9", metabolites := [], compartments := [],
    reactions := [("B1", Reaction.mk "B1" (some "x") true),
      ("B1_f", Reaction.mk "B1_f" (some "y") false)],
    stoichiometry := [] }

/-- Counterexample for C9 as stated: the non-reversible reaction `B1_f` is
not left untouched — splitting `B1` replaces it with a fresh record
carrying `B1`'s name. -/
theorem C9_cex :
    odFind mdlC9cex.reactions "B1_f"
      = some (Reaction.mk "B1_f" (some "y") false) ∧
    odFind (make_irreversible (AnyModel.stoich mdlC9cex)).state.reactions "B1_f"
      = some (Reaction.mk "B1_f" (some "x") false) := by
  refine ⟨rfl, rfl⟩

/-- Witness model for C9: a GPR model with one non-reversible and one
reversible reaction (the call raises on the latter, C1). -/
def mdlC9w : GPRConstrainedModel :=
  { id := "w9", metabolites := [("m1", Metabolite.mk "m1" none none)],
    compartments := [],
    reactions := [("N", Reaction.mk "N" none false),
      ("R", Reaction.mk "R" none true)],
    stoichiometry := [(("m1", "N"), 4), (("m1", "R"), 1)],
    bounds := [("N", (some 1, some 2)), ("R", (some (-1), some 1))],
    genes := [("g1", Gene.mk "g1" none)],
    rules := [("N", some (GPRExpr.gvar "g1")), ("R", none)],
    rule_functions := [("N", CompiledRule.lookupGene "g1"),
      ("R", CompiledRule.val true)] }

/-- Witness for C9 at a concrete GPR model: even though the call raises,
the non-reversible reaction and its edge are carried unchanged. -/
theorem C9_nonreversible_identity_w :
    odFind (make_irreversible (AnyModel.gpr mdlC9w)).state.reactions "N"
      = odFind (AnyModel.gpr mdlC9w).reactions "N" ∧
    odFind (make_irreversible (AnyModel.gpr mdlC9w)).state.stoichiometry
      ("m1", "N") = odFind (AnyModel.gpr mdlC9w).stoichiometry ("m1", "N") ∧
    (make_irreversible (AnyModel.gpr mdlC9w)).isErr = true := by
  have h := C9_nonreversible_identity (AnyModel.gpr mdlC9w)
    (by decide) (by decide)
  have h2 := h "N" (Reaction.mk "N" none false) (by decide) rfl
  exact ⟨h2.1, h2.2.1 "m1", rfl⟩
